import Mathlib

/-!
Verification development for the rate-limit sleep hook
(`rate-limit-sleep.py`): a shallow embedding of its core parsing and
time-arithmetic functions, together with theorems checking the
specification's claims against that embedding.

Modelling conventions:
* Python strings are modelled as `List Char`.  Regular-expression matching
  is embedded as deterministic parsers; each parser carries a comment with
  the regex it embeds and a justification that backtracking cannot produce
  a different outcome for that regex.
* Python `str.lower`, `str.strip` and the `\s`, `\d` character classes are
  modelled over ASCII (`string.whitespace` = " \t\n\r\x0b\x0c"); the
  additional Unicode folding/whitespace/digit behaviour of CPython is not
  modelled.
* `datetime` values are modelled by `DateTime`: a linear day count plus
  hour/minute/second/microsecond fields.  Comparison of timezone-aware
  datetimes that carry the same `tzinfo` coincides with comparison of the
  wall-clock fields, which is what `wallUsec` implements.  A timezone
  (`zoneinfo.ZoneInfo`) is modelled as a fixed UTC offset; DST transitions
  are not modelled, so adding `timedelta(days=1)` shifts the absolute
  instant by exactly 24 hours, matching the specification's reading.
* Python `float` is modelled bit-exactly as IEEE-754 binary64 on
  non-negative values: `PyFloat.finite m e` is the real number `m * 2^e`,
  and `roundDouble a b` correctly rounds the rational `a / b` to the
  nearest binary64 value (ties to even, overflow to `inf`), which is what
  CPython's `float(str)` and float multiplication by an exact small
  integer compute.
* Fallible Python code returns `Except PyErr`; an uncaught exception is an
  `.error`.
-/

deriving instance DecidableEq for Except

namespace RateLimitSleep

/-! ### Characters and strings -/

/-- Python's whitespace class over ASCII: the characters of
`string.whitespace` (" \t\n\r\x0b\x0c"), which is also what `\s` matches
in an ASCII string and what `str.strip()` removes. -/
def isWs (c : Char) : Bool :=
  c = ' ' || c = '\t' || c = '\n' || c = '\r' || c = '\x0b' || c = '\x0c'

/-- Python's `str.lower()` (ASCII model). -/
def lowerStr (l : List Char) : List Char := l.map Char.toLower

/-- Python's `str.strip()`: drop leading and trailing whitespace. -/
def stripWs (l : List Char) : List Char :=
  ((l.dropWhile isWs).reverse.dropWhile isWs).reverse

/-- Numeric value of a digit string, as `int()` computes it
(leading zeros allowed). -/
def digitsVal (l : List Char) : ℕ :=
  l.foldl (fun a c => 10 * a + (c.toNat - '0'.toNat)) 0

/-! ### Timezones and datetimes -/

/-- A resolved timezone.  `zoneinfo.ZoneInfo` objects are modelled as fixed
UTC offsets (in microseconds); DST transitions are not modelled. -/
structure Tz where
  utcOffsetUsec : ℤ
deriving DecidableEq

/-- A `datetime.datetime`.  The calendar date is abstracted into a linear
day count (`datetime.toordinal`), which months and years determine
bijectively; `timedelta` arithmetic and comparisons only see this linear
structure. -/
structure DateTime where
  day : ℤ
  hour : ℕ
  minute : ℕ
  second : ℕ
  usec : ℕ
deriving DecidableEq

/-- Field bounds of every real `datetime` value. -/
def DateTime.Valid (t : DateTime) : Prop :=
  t.hour ≤ 23 ∧ t.minute ≤ 59 ∧ t.second ≤ 59 ∧ t.usec ≤ 999999

/-- Wall-clock microseconds since day 0.  Two aware datetimes with the same
`tzinfo` compare (and subtract) exactly as their `wallUsec` values do. -/
def DateTime.wallUsec (t : DateTime) : ℤ :=
  (((t.day * 24 + t.hour) * 60 + t.minute) * 60 + t.second) * 1000000 + t.usec

/-- Rebuild a `datetime` from wall-clock microseconds (the normalisation
`datetime + timedelta` performs). -/
def dateTimeOfWallUsec (u : ℤ) : DateTime :=
  let t1 := u / 1000000
  let t2 := t1 / 60
  let t3 := t2 / 60
  { day := t3 / 24
    hour := (t3 % 24).toNat
    minute := (t2 % 60).toNat
    second := (t1 % 60).toNat
    usec := (u % 1000000).toNat }

/-- Python's `datetime + timedelta(microseconds=d)` (wall-clock arithmetic, as
Python performs on aware datetimes). -/
def DateTime.addUsec (t : DateTime) (d : ℤ) : DateTime :=
  dateTimeOfWallUsec (t.wallUsec + d)

/-- The absolute instant (microseconds since the epoch of day 0, in UTC) of
a wall-clock reading in timezone `tz`. -/
def epochUsec (t : DateTime) (tz : Tz) : ℤ := t.wallUsec - tz.utcOffsetUsec

/-- Exceptions the embedded code can raise. -/
inductive PyErr where
  | valueError (msg : List Char)
  | overflowError
  | attributeError
deriving DecidableEq

/-- Python's `datetime.replace(hour=h, minute=m, second=0, microsecond=0)` — the
only `replace` shape the script uses.  Out-of-range fields raise
`ValueError`. -/
def DateTime.replaceHM (t : DateTime) (h m : ℕ) : Except PyErr DateTime :=
  if 24 ≤ h then .error (.valueError ("hour must be in 0..23".toList))
  else if 60 ≤ m then .error (.valueError ("minute must be in 0..59".toList))
  else .ok { t with hour := h, minute := m, second := 0, usec := 0 }

/-! ### IEEE-754 binary64 model (non-negative values)

CPython's `float("...")` performs correctly-rounded decimal-to-binary64
conversion, and multiplying a float by a small exact integer is again a
correctly-rounded binary64 operation.  Both reduce to: round an exact
non-negative rational `a / b` to the nearest binary64 value, ties to even,
with overflow to `+inf`.  All arithmetic below is on `ℕ`/`ℤ` so that the
definitions evaluate by kernel reduction. -/

/-- Fuel-driven ⌊log₂ n⌋ (`fuel ≥ n ≥ 1` guarantees enough iterations,
since the loop runs ⌊log₂ n⌋ + 1 ≤ n times). -/
def natLog2F : ℕ → ℕ → ℕ
  | 0, _ => 0
  | fuel + 1, n => if 2 ≤ n then natLog2F fuel (n / 2) + 1 else 0

/-- Floor of log₂ n for n ≥ 1 (and 0 at 0). -/
def natLog2 (n : ℕ) : ℕ := natLog2F n n

/-- Fuel-driven ⌈log₂ n⌉ for n ≥ 1: recurse on ⌈n/2⌉. -/
def natClog2F : ℕ → ℕ → ℕ
  | 0, _ => 0
  | fuel + 1, n => if 2 ≤ n then natClog2F fuel ((n + 1) / 2) + 1 else 0

/-- Ceiling of log₂ n for n ≥ 1 (and 0 at 0). -/
def natClog2 (n : ℕ) : ℕ := natClog2F n n

/-- Floor of log₂ (a/b) for a, b ≥ 1.  For a/b < 1 this is −⌈log₂ (b/a)⌉, and
⌈log₂ x⌉ = ⌈log₂ ⌈x⌉⌉ because ⌈log₂⌉ jumps exactly at powers of two;
`(b + a - 1) / a` is ⌈b/a⌉. -/
def ratFloorLog2 (a b : ℕ) : ℤ :=
  if b ≤ a then (natLog2 (a / b) : ℤ) else -(natClog2 ((b + a - 1) / a) : ℤ)

/-- Round a/b (b ≥ 1) to the nearest integer, ties to even. -/
def halfEvenDiv (a b : ℕ) : ℕ :=
  let q := a / b
  let r := a % b
  if 2 * r < b then q
  else if b < 2 * r then q + 1
  else if q % 2 = 0 then q else q + 1

/-- Round (a/b)·2^s to the nearest integer, ties to even. -/
def roundScaled (a b : ℕ) (s : ℤ) : ℕ :=
  if 0 ≤ s then halfEvenDiv (a * 2 ^ s.toNat) b else halfEvenDiv a (b * 2 ^ (-s).toNat)

/-- A non-negative Python float: `finite m e` is the real number m·2^e. -/
inductive PyFloat where
  | finite (mantissa : ℕ) (exp2 : ℤ)
  | inf
deriving DecidableEq

/-- Correctly round the rational a/b (b ≥ 1) to binary64: compute the
exponent e = max(⌊log₂ (a/b)⌋, −1022) (the subnormal cutoff), round the
mantissa at scale 2^(e−52), and overflow to `inf` when the rounded value
reaches 2^1024.  The rounded mantissa satisfies 2^52 ≤ m ≤ 2^53 in the
normal range (and m ≤ 2^52 when e = −1022), so for e ≥ 1025 the value
m·2^(e−52) ≥ 2^(e−1) ≥ 2^1024 always overflows, and for e ≤ 970 it is at
most 2^53·2^918 < 2^1024 and never does; only 970 < e < 1025 needs the
comparison m·2^(e−52) ≥ 2^1024, i.e. m ≥ 2^(1076−e). -/
def roundDouble (a b : ℕ) : PyFloat :=
  if a = 0 then .finite 0 0
  else
    let e : ℤ := max (ratFloorLog2 a b) (-1022)
    if 1025 ≤ e then .inf
    else
      let m := roundScaled a b (52 - e)
      if e ≤ 970 then .finite m (e - 52)
      else if 2 ^ (1076 - e).toNat ≤ m then .inf
      else .finite m (e - 52)

/-- CPython's `float(group(1))` where the group split into integer digits `d` and
fractional digits `f`: the exact value is (val d · 10^|f| + val f) / 10^|f|,
correctly rounded. -/
def strToDouble (d f : List Char) : PyFloat :=
  roundDouble (digitsVal d * 10 ^ f.length + digitsVal f) (10 ^ f.length)

/-- Multiplication of a float by an exact natural (`value * 3600` etc.):
the exact product re-rounded to binary64. -/
def floatMulNat : PyFloat → ℕ → PyFloat
  | .inf, _ => .inf
  | .finite m e, k =>
    if 0 ≤ e then roundDouble (m * k * 2 ^ e.toNat) 1
    else roundDouble (m * k) (2 ^ (-e).toNat)

/-- Python's `int(x)` on a non-negative float: truncation; `int(inf)` raises
`OverflowError`, modelled as `none`. -/
def floatTruncInt : PyFloat → Option ℕ
  | .inf => none
  | .finite m e => some (if 0 ≤ e then m * 2 ^ e.toNat else m / 2 ^ (-e).toNat)

/-! ### Token grammars (embedded regexes) -/

/-- The hour/minute units of `parse_duration`'s first two membership
tests, and the full alternation of its regex. -/
def durationUnitsHours : List (List Char) :=
  ["h".toList, "hr".toList, "hrs".toList, "hour".toList, "hours".toList]

def durationUnitsMinutes : List (List Char) :=
  ["m".toList, "min".toList, "mins".toList, "minute".toList, "minutes".toList]

def durationUnitsSeconds : List (List Char) :=
  ["s".toList, "sec".toList, "secs".toList, "second".toList, "seconds".toList]

def durationUnitsAll : List (List Char) :=
  durationUnitsHours ++ durationUnitsMinutes ++ durationUnitsSeconds

/-- Embeds `re.match(r"^(\d+(?:\.\d+)?)\s*(h|hr|hrs|hour|hours|m|min|mins|minute|minutes|s|sec|secs|second|seconds)$", t)`
returning (integer digits, fractional digits, unit).

Backtracking analysis: `\d+` and the inner `\d+` are maximal because no
continuation of either can consume a digit ('.' is not a digit, `\s*`
matches no digit, every unit starts with a letter); `(?:\.\d+)?` is taken
exactly when a '.' followed by at least one digit is present, since
otherwise the continuation would have to match starting at '.', which it
cannot; `\s*` is maximal because no unit starts with whitespace; and the
anchored alternation of units forces the remaining text to equal one of
the fifteen unit strings. -/
def matchDurationFull (t : List Char) : Option (List Char × List Char × List Char) :=
  let d := t.takeWhile Char.isDigit
  if d.length = 0 then none
  else
    let r1 := t.dropWhile Char.isDigit
    let fr : List Char × List Char :=
      if r1.head? = some '.' ∧ (r1.tail.takeWhile Char.isDigit).length ≠ 0 then
        (r1.tail.takeWhile Char.isDigit, r1.tail.dropWhile Char.isDigit)
      else ([], r1)
    let unit := fr.2.dropWhile isWs
    if unit ∈ durationUnitsAll then some (d, fr.1, unit) else none

/-- The function `parse_duration` (rate-limit-sleep.py lines 24-39): duration like
"2h", "30m", "45s" to seconds; `None` when the token is not a duration.
`int(float(...) * mult)` can raise `OverflowError` when the float is
infinite. -/
def parse_duration (duration_str : List Char) : Except PyErr (Option ℤ) :=
  let t := stripWs (lowerStr duration_str)
  match matchDurationFull t with
  | none => .ok none
  | some (d, f, unit) =>
    let value := strToDouble d f
    let mult : ℕ :=
      if unit ∈ durationUnitsHours then 3600
      else if unit ∈ durationUnitsMinutes then 60
      else 1
    match floatTruncInt (floatMulNat value mult) with
    | some n => .ok (some (n : ℤ))
    | none => .error .overflowError

/-- am/pm. -/
inductive Meridiem where
  | am
  | pm
deriving DecidableEq

/-- The two characters of a meridiem token. -/
def meridiemStr : Meridiem → List Char
  | .am => ['a', 'm']
  | .pm => ['p', 'm']

/-- Greedy `\d{1,2}` at the start of `t`, where the regex continuation can never
consume a digit (it is ':', `\s*`, or `am|pm`): the greedy capped repeat
with backtracking accepts exactly a maximal digit run of length 1 or 2,
and fails when three or more digits are adjacent. -/
def takeDigits2 (t : List Char) : Option (List Char × List Char) :=
  let d := t.takeWhile Char.isDigit
  if d.length = 1 || d.length = 2 then some (d, t.dropWhile Char.isDigit) else none

/-- Anchored `(am|pm)$`: the remaining text must be exactly the meridiem. -/
def meridiemFull (l : List Char) : Option Meridiem :=
  if l = ['a', 'm'] then some .am
  else if l = ['p', 'm'] then some .pm
  else none

/-- Unanchored `(am|pm)`: a meridiem at the front, rest ignored. -/
def meridiemAt (l : List Char) : Option Meridiem :=
  if ['a', 'm'].isPrefixOf l then some .am
  else if ['p', 'm'].isPrefixOf l then some .pm
  else none

/-- Embeds `re.match(r"^(\d{1,2}):(\d{2})\s*(am|pm)$", t)` → (hour, minute,
meridiem).  `\d{2}` is exactly two digits; `\s*` is maximal since 'a'/'p'
are not whitespace. -/
def matchTimeColonFull (t : List Char) : Option (ℕ × ℕ × Meridiem) :=
  match takeDigits2 t with
  | none => none
  | some (d, r1) =>
    match r1 with
    | c :: m1 :: m2 :: r2 =>
      if c = ':' ∧ m1.isDigit ∧ m2.isDigit then
        match meridiemFull (r2.dropWhile isWs) with
        | some p => some (digitsVal d, digitsVal [m1, m2], p)
        | none => none
      else none
    | _ => none

/-- Embeds `re.match(r"^(\d{1,2})\s*(am|pm)$", t)` → (hour, 0, meridiem). -/
def matchTimeBareFull (t : List Char) : Option (ℕ × ℕ × Meridiem) :=
  match takeDigits2 t with
  | none => none
  | some (d, r1) =>
    match meridiemFull (r1.dropWhile isWs) with
    | some p => some (digitsVal d, 0, p)
    | none => none

/-- Embeds `re.match(r"(\d{1,2}):(\d{2})\s*(am|pm)", t)` — as in
`parse_reset_time`, anchored only at the start. -/
def matchTimeColonAt (t : List Char) : Option (ℕ × ℕ × Meridiem) :=
  match takeDigits2 t with
  | none => none
  | some (d, r1) =>
    match r1 with
    | c :: m1 :: m2 :: r2 =>
      if c = ':' ∧ m1.isDigit ∧ m2.isDigit then
        match meridiemAt (r2.dropWhile isWs) with
        | some p => some (digitsVal d, digitsVal [m1, m2], p)
        | none => none
      else none
    | _ => none

/-- Embeds `re.match(r"(\d{1,2})\s*(am|pm)", t)` — anchored only at the start. -/
def matchTimeBareAt (t : List Char) : Option (ℕ × ℕ × Meridiem) :=
  match takeDigits2 t with
  | none => none
  | some (d, r1) =>
    match meridiemAt (r1.dropWhile isWs) with
    | some p => some (digitsVal d, 0, p)
    | none => none

/-- The 12-hour to 24-hour conversion both clock-time parsers perform:
`if period == "pm" and hour != 12: hour += 12 elif period == "am" and
hour == 12: hour = 0`. -/
def to24Hour (hour : ℕ) (period : Meridiem) : ℕ :=
  if period = .pm ∧ hour ≠ 12 then hour + 12
  else if period = .am ∧ hour = 12 then 0
  else hour

/-- The branch on `":" in time_str` in `parse_time_to_seconds` (both its
regexes are fully anchored). -/
def timeFieldsFull (t : List Char) : Option (ℕ × ℕ × Meridiem) :=
  if ':' ∈ t then matchTimeColonFull t else matchTimeBareFull t

/-- The branch on `":" in time_str` in `parse_reset_time` (its regexes are
anchored at the start only). -/
def timeFieldsAt (t : List Char) : Option (ℕ × ℕ × Meridiem) :=
  if ':' ∈ t then matchTimeColonAt t else matchTimeBareAt t

/-- The function `parse_time_to_seconds` (lines 41-78).  The timezone argument is only
used to read the current wall clock, so the model receives that reading
(`now`) directly; `tz=None` means the caller passes the local wall clock.
Returns `.ok none` when neither regex matches, raises `ValueError` when
`replace` gets impossible fields, and otherwise returns the whole-second
truncation of `(target - now).total_seconds()` — exact here because the
difference is a whole number of microseconds well within 2^53. -/
def parse_time_to_seconds (time_str : List Char) (now : DateTime) : Except PyErr (Option ℤ) :=
  match timeFieldsFull (stripWs (lowerStr time_str)) with
  | none => .ok none
  | some (hour, minute, period) =>
    let hour24 := to24Hour hour period
    match now.replaceHM hour24 minute with
    | .error e => .error e
    | .ok target =>
      let target2 :=
        if target.wallUsec ≤ now.wallUsec then target.addUsec 86400000000 else target
      .ok (some ((target2.wallUsec - now.wallUsec) / 1000000))

/-- The message of the `ValueError` `parse_duration_or_time` raises. -/
def cannotParseMsg (arg : List Char) : List Char :=
  "Could not parse '".toList ++ arg ++
    "' as duration (e.g., 2h, 30m) or time (e.g., 4pm, 11:30am)".toList

/-- The function `parse_duration_or_time` (lines 80-92): duration first, then clock
time in the local timezone (`now` is the local wall clock), then a
`ValueError` naming the token.  Exceptions from either parser propagate. -/
def parse_duration_or_time (arg : List Char) (now : DateTime) : Except PyErr ℤ :=
  match parse_duration arg with
  | .error e => .error e
  | .ok (some seconds) => .ok seconds
  | .ok none =>
    match parse_time_to_seconds arg now with
    | .error e => .error e
    | .ok (some seconds) => .ok seconds
    | .ok none => .error (.valueError (cannotParseMsg arg))

/-- Timezone text normalisation in `parse_reset_time` (line 98):
`tz_str.strip().replace(" ", "_")`. -/
def normalizeTzText (tz_str : List Char) : List Char :=
  (stripWs tz_str).map (fun c => if c = ' ' then '_' else c)

/-- The `log(...)` line written when `ZoneInfo` fails (line 104); `emsg`
is the environment-dependent text of the caught exception. -/
def zoneInfoFallbackLog (norm emsg : List Char) : List Char :=
  "DEBUG: ZoneInfo failed for '".toList ++ norm ++ "': ".toList ++ emsg ++
    ", using local timezone".toList

/-- The timezone-resolution step of `parse_reset_time` (lines 96-106).
`db` models the `ZoneInfo` database (`none` = the constructor raises);
on failure the local timezone is used and a debug line is logged — the
step itself never raises.  Returns the resolved timezone and the log
lines written. -/
def resolve_tz (db : List Char → Option Tz) (localTz : Tz) (emsg : List Char)
    (tz_str : List Char) : Tz × List (List Char) :=
  let norm := normalizeTzText tz_str
  match db norm with
  | some tz => (tz, [])
  | none => (localTz, [zoneInfoFallbackLog norm emsg])

/-- The function `parse_reset_time` (lines 94-141).  `now` is the wall-clock reading
`datetime.now(tz)` in the resolved timezone.  When neither regex matches,
`match.group(1)` on `None` raises `AttributeError`; `replace` can raise
`ValueError`.  Returns the (possibly rolled-over) reset datetime, the
resolved timezone and the log lines written. -/
def parse_reset_time (db : List Char → Option Tz) (localTz : Tz) (emsg : List Char)
    (now : DateTime) (time_str tz_str : List Char) :
    Except PyErr (DateTime × Tz × List (List Char)) :=
  let tzr := resolve_tz db localTz emsg tz_str
  match timeFieldsAt (stripWs (lowerStr time_str)) with
  | none => .error .attributeError
  | some (hour, minute, period) =>
    let hour24 := to24Hour hour period
    match now.replaceHM hour24 minute with
    | .error e => .error e
    | .ok reset =>
      let reset2 :=
        if reset.wallUsec ≤ now.wallUsec then reset.addUsec 86400000000 else reset
      .ok (reset2, tzr.1, tzr.2)

/-! ### Rate-limit detection and extraction (hook mode) -/

/-- Models `re.search`: try the position matcher at every suffix, left to right. -/
def searchAny (m : List Char → Bool) : List Char → Bool
  | [] => m []
  | c :: rest => m (c :: rest) || searchAny m rest

/-- A literal pattern at the current position. -/
def litAt (pat l : List Char) : Bool := pat.isPrefixOf l

/-- Consume a literal, returning the rest. -/
def afterLit (pat l : List Char) : Option (List Char) :=
  if pat.isPrefixOf l then some (l.drop pat.length) else none

/-- Consume `\s+` (maximal; the continuations here all start with a
letter, so maximal munch is exact). -/
def afterWs1 : List Char → Option (List Char)
  | [] => none
  | c :: rest => if isWs c then some (rest.dropWhile isWs) else none

/-- Matches `stop\s+and\s+wait\s+for\s+(?:limit|rate)` at the current position. -/
def stopAndWaitAt (l : List Char) : Bool :=
  match (((((((afterLit "stop".toList l).bind afterWs1).bind
      (afterLit "and".toList)).bind afterWs1).bind
      (afterLit "wait".toList)).bind afterWs1).bind
      (afterLit "for".toList)).bind afterWs1 with
  | some r => "limit".toList.isPrefixOf r || "rate".toList.isPrefixOf r
  | none => false

/-- Matches `rate\s*limit` at the current position (maximal `\s*` is exact since
'l' is not whitespace). -/
def rateLimitAt (l : List Char) : Bool :=
  match afterLit "rate".toList l with
  | some r => "limit".toList.isPrefixOf (r.dropWhile isWs)
  | none => false

/-- The rate-limit predicate of `hook_mode` (lines 225-235):
`any(re.search(p, message, re.IGNORECASE) for p in rate_limit_indicators)`.
`re.IGNORECASE` is modelled by lowercasing the text (the patterns are
already lowercase). -/
def is_rate_limit (message : List Char) : Bool :=
  let msg := lowerStr message
  searchAny (litAt "hit your limit".toList) msg ||
  searchAny (litAt "usage limit".toList) msg ||
  searchAny stopAndWaitAt msg ||
  searchAny rateLimitAt msg

/-- Matches `[^)]+\)` : a maximal non-empty run of characters other than a
closing parenthesis,
followed by ')'.  Returns (timezone text, rest after ')'). -/
def matchTzParen : List Char → Option (List Char)
  | '(' :: r =>
    let tzTxt := r.takeWhile (fun c => c ≠ ')')
    if tzTxt.length = 0 then none
    else
      match r.dropWhile (fun c => c ≠ ')') with
      | ')' :: _ => some tzTxt
      | _ => none
  | _ => none

/-- After group 1 has matched (its text is `g1`): `\s*\(([^)]+)\)`. -/
def matchTzPart (g1 l : List Char) : Option (List Char × List Char) :=
  match matchTzParen (l.dropWhile isWs) with
  | some tzTxt => some (g1, tzTxt)
  | none => none

/-- Matches `\s*(?:am|pm)` closing group 1; case-insensitive.  The matched
characters (original case) are appended to the group text. -/
def matchTimeEnd (g1 l : List Char) : Option (List Char × List Char) :=
  let w := l.takeWhile isWs
  let r := l.dropWhile isWs
  match r with
  | a :: m :: rest =>
    if (a.toLower = 'a' || a.toLower = 'p') && m.toLower = 'm' then
      matchTzPart (g1 ++ w ++ [a, m]) rest
    else none
  | _ => none

/-- Matches `(?::\d{2})?` (greedy: with the colon first, then without) and the
rest of the pattern. -/
def matchAfterHour (g1 l : List Char) : Option (List Char × List Char) :=
  (match l with
   | c :: d1 :: d2 :: r =>
     if c = ':' && d1.isDigit && d2.isDigit then matchTimeEnd (g1 ++ [c, d1, d2]) r
     else none
   | _ => none) <|> matchTimeEnd g1 l

/-- The extraction pattern of `hook_mode` (line 252):
`(\d{1,2}(?::\d{2})?\s*(?:am|pm))\s*\(([^)]+)\)` at one position.
`\d{1,2}` is greedy (two digits first, then one). -/
def matchTimeTzTail (l : List Char) : Option (List Char × List Char) :=
  match l with
  | d1 :: rest1 =>
    if d1.isDigit then
      (match rest1 with
       | d2 :: rest2 => if d2.isDigit then matchAfterHour [d1, d2] rest2 else none
       | [] => none) <|> matchAfterHour [d1] rest1
    else none
  | [] => none

/-- Models `re.search` for an Option-valued position matcher: leftmost match. -/
def searchFirst (m : List Char → Option α) : List Char → Option α
  | [] => m []
  | c :: rest => m (c :: rest) <|> searchFirst m rest

/-- Time/timezone extraction of `hook_mode` (lines 251-259):
`re.search(time_pattern, message, re.IGNORECASE)`, giving
(`match.group(1)`, `match.group(2)`). -/
def extract_time_tz (message : List Char) : Option (List Char × List Char) :=
  searchFirst matchTimeTzTail message

/-- The constant `BUFFER_MINUTES = 5` (line 15). -/
def BUFFER_MINUTES : ℕ := 5

/-- What a `hook_mode` run does: the seconds slept (as an exact count of
microseconds; `none` when it does not sleep) and the one JSON decision
printed to stdout. -/
structure HookOutcome where
  sleptUsec : Option ℤ
  printed : List Char
deriving DecidableEq

/-- Printed form of `json.dumps` on the continue-false decision. -/
def continueFalseJson : List Char := "\x7b\"continue\": false\x7d".toList

/-- Printed form of `json.dumps` on the continue-true decision. -/
def continueTrueJson : List Char := "\x7b\"continue\": true\x7d".toList

/-- The decision logic of `hook_mode` (lines 212-277) after the combined
message text has been assembled from stdin and the transcript (I/O glue,
out of scope).  `now1` is the wall clock `parse_reset_time` reads in the
resolved timezone; `now2` is the later reading
`datetime.now(reset_time.tzinfo)` used to compute the sleep.
`sleep_seconds = (wake_time - now).total_seconds()` is compared to 0; the
float rounding of `total_seconds` cannot change the sign of a non-zero
whole number of microseconds in this range, so the comparison is modelled
exactly on microseconds. -/
def hook_mode (db : List Char → Option Tz) (localTz : Tz) (emsg : List Char)
    (now1 now2 : DateTime) (message : List Char) : HookOutcome :=
  if ¬ is_rate_limit message then { sleptUsec := none, printed := continueFalseJson }
  else
    match extract_time_tz message with
    | none => { sleptUsec := none, printed := continueFalseJson }
    | some (time_str, tz_str) =>
      match parse_reset_time db localTz emsg now1 time_str tz_str with
      | .error _ => { sleptUsec := none, printed := continueFalseJson }
      | .ok (reset_time, _, _) =>
        let wake_time := reset_time.addUsec (BUFFER_MINUTES * 60 * 1000000)
        let sleepUsec := wake_time.wallUsec - now2.wallUsec
        if 0 < sleepUsec then { sleptUsec := some sleepUsec, printed := continueTrueJson }
        else { sleptUsec := none, printed := continueTrueJson }

/-! ### Datetime arithmetic lemmas -/

lemma wallUsec_dateTimeOfWallUsec (u : ℤ) : (dateTimeOfWallUsec u).wallUsec = u := by
  simp only [dateTimeOfWallUsec, DateTime.wallUsec]
  omega

lemma dateTimeOfWallUsec_wallUsec (t : DateTime) (ht : t.Valid) :
    dateTimeOfWallUsec t.wallUsec = t := by
  obtain ⟨h1, h2, h3, h4⟩ := ht
  cases t with
  | mk day hour minute second usec =>
    simp only [dateTimeOfWallUsec, DateTime.wallUsec, DateTime.mk.injEq]
    refine ⟨?_, ?_, ?_, ?_, ?_⟩ <;> (simp only [] at h1 h2 h3 h4 ⊢) <;> omega

lemma wallUsec_addUsec (t : DateTime) (d : ℤ) :
    (t.addUsec d).wallUsec = t.wallUsec + d :=
  wallUsec_dateTimeOfWallUsec _

lemma addUsec_one_day (t : DateTime) (ht : t.Valid) :
    t.addUsec 86400000000 = { t with day := t.day + 1 } := by
  obtain ⟨h1, h2, h3, h4⟩ := ht
  cases t with
  | mk day hour minute second usec =>
    simp only [DateTime.addUsec, dateTimeOfWallUsec, DateTime.wallUsec, DateTime.mk.injEq]
    refine ⟨?_, ?_, ?_, ?_, ?_⟩ <;> (simp only [] at h1 h2 h3 h4 ⊢) <;> omega

/-! ### Evaluation lemmas for the clock-time parsers -/

/-- Did a call return without raising? -/
def isOkResult : Except PyErr (DateTime × Tz × List (List Char)) → Bool
  | .ok _ => true
  | .error _ => false

/-- Did `parse_time_to_seconds` return a value (rather than `None` or an
exception)? -/
def returnsSeconds : Except PyErr (Option ℤ) → Bool
  | .ok (some _) => true
  | _ => false

/-- Did `parse_time_to_seconds` raise a `ValueError`? -/
def raisesValueError : Except PyErr (Option ℤ) → Bool
  | .error (.valueError _) => true
  | _ => false

lemma parse_reset_time_eval (db : List Char → Option Tz) (localTz : Tz) (emsg : List Char)
    (now : DateTime) (ts tzs : List Char) (h m : ℕ) (p : Meridiem)
    (hgram : timeFieldsAt (stripWs (lowerStr ts)) = some (h, m, p))
    (hh : to24Hour h p ≤ 23) (hm : m ≤ 59) :
    parse_reset_time db localTz emsg now ts tzs =
      .ok (if (DateTime.mk now.day (to24Hour h p) m 0 0).wallUsec ≤ now.wallUsec
           then (DateTime.mk now.day (to24Hour h p) m 0 0).addUsec 86400000000
           else DateTime.mk now.day (to24Hour h p) m 0 0,
           (resolve_tz db localTz emsg tzs).1, (resolve_tz db localTz emsg tzs).2) := by
  simp only [parse_reset_time, hgram, DateTime.replaceHM,
    if_neg (by omega : ¬ 24 ≤ to24Hour h p), if_neg (by omega : ¬ 60 ≤ m)]

lemma parse_time_to_seconds_eval_ok (ts : List Char) (now : DateTime) (h m : ℕ) (p : Meridiem)
    (hgram : timeFieldsFull (stripWs (lowerStr ts)) = some (h, m, p))
    (hh : to24Hour h p ≤ 23) (hm : m ≤ 59) :
    parse_time_to_seconds ts now =
      .ok (some (((if (DateTime.mk now.day (to24Hour h p) m 0 0).wallUsec ≤ now.wallUsec
                   then (DateTime.mk now.day (to24Hour h p) m 0 0).addUsec 86400000000
                   else DateTime.mk now.day (to24Hour h p) m 0 0).wallUsec
                  - now.wallUsec) / 1000000)) := by
  simp only [parse_time_to_seconds, hgram, DateTime.replaceHM,
    if_neg (by omega : ¬ 24 ≤ to24Hour h p), if_neg (by omega : ¬ 60 ≤ m)]

lemma parse_time_to_seconds_eval_err (ts : List Char) (now : DateTime) (h m : ℕ) (p : Meridiem)
    (hgram : timeFieldsFull (stripWs (lowerStr ts)) = some (h, m, p))
    (hbad : 24 ≤ to24Hour h p ∨ 60 ≤ m) :
    parse_time_to_seconds ts now =
      .error (.valueError (if 24 ≤ to24Hour h p then "hour must be in 0..23".toList
                           else "minute must be in 0..59".toList)) := by
  by_cases hh : 24 ≤ to24Hour h p
  · simp only [parse_time_to_seconds, hgram, DateTime.replaceHM, if_pos hh]
  · have hm : 60 ≤ m := by tauto
    simp only [parse_time_to_seconds, hgram, DateTime.replaceHM, if_neg hh, if_pos hm]

lemma parse_time_to_seconds_eval_none (ts : List Char) (now : DateTime)
    (hgram : timeFieldsFull (stripWs (lowerStr ts)) = none) :
    parse_time_to_seconds ts now = .ok none := by
  simp only [parse_time_to_seconds, hgram]

/-! ### List-scanning lemmas -/

lemma takeWhile_append_of_all {p : Char → Bool} {d : List Char} (r : List Char)
    (h : ∀ c ∈ d, p c = true) : (d ++ r).takeWhile p = d ++ r.takeWhile p := by
  induction d with
  | nil => simp
  | cons c cs ih =>
    simp only [List.cons_append, List.takeWhile_cons, h c (List.mem_cons_self c cs), if_true]
    rw [ih (fun x hx => h x (List.mem_cons_of_mem c hx))]

lemma dropWhile_append_of_all {p : Char → Bool} {d : List Char} (r : List Char)
    (h : ∀ c ∈ d, p c = true) : (d ++ r).dropWhile p = r.dropWhile p := by
  induction d with
  | nil => simp
  | cons c cs ih =>
    simp only [List.cons_append, List.dropWhile_cons, h c (List.mem_cons_self c cs), if_true]
    exact ih (fun x hx => h x (List.mem_cons_of_mem c hx))

lemma takeWhile_dropWhile_self {p : Char → Bool} (l : List Char) :
    (l.dropWhile p).takeWhile p = [] := by
  induction l with
  | nil => simp
  | cons c cs ih =>
    by_cases hc : p c = true
    · simpa [List.dropWhile_cons, hc] using ih
    · simp [List.dropWhile_cons, List.takeWhile_cons, hc]

lemma dropWhile_eq_self_of_takeWhile_nil {p : Char → Bool} {l : List Char}
    (h : l.takeWhile p = []) : l.dropWhile p = l := by
  have := List.takeWhile_append_dropWhile p l
  rw [h] at this
  simpa using this

lemma isPrefixOf_iff_append {l₁ l₂ : List Char} :
    l₁.isPrefixOf l₂ = true ↔ ∃ t, l₂ = l₁ ++ t := by
  rw [ List.isPrefixOf_iff_prefix]
  constructor
  · rintro ⟨t, ht⟩
    exact ⟨t, ht.symm⟩
  · rintro ⟨t, ht⟩
    exact ⟨t, ht.symm⟩

/-! ### Specification-side token grammars -/

/-- All characters are ASCII digits. -/
def IsDigits (l : List Char) : Prop := ∀ c ∈ l, c.isDigit = true

/-- All characters are whitespace. -/
def IsWsRun (l : List Char) : Prop := ∀ c ∈ l, isWs c = true

instance (l : List Char) : Decidable (IsDigits l) := List.decidableBAll _ l

instance (l : List Char) : Decidable (IsWsRun l) := List.decidableBAll _ l

lemma isWs_not_digit {c : Char} (h : isWs c = true) : c.isDigit = false := by
  simp only [isWs, Bool.or_eq_true, decide_eq_true_eq] at h
  rcases h with ((((h | h) | h) | h) | h) | h <;> subst h <;> decide

lemma isDigit_ne_colon {c : Char} (h : c.isDigit = true) : c ≠ ':' := by
  intro hc
  subst hc
  simp at h

lemma isWs_ne_colon {c : Char} (h : isWs c = true) : c ≠ ':' := by
  intro hc
  subst hc
  simp [isWs] at h

lemma meridiemStr_head_facts (p : Meridiem) :
    ∃ a rest, meridiemStr p = a :: rest ∧ a.isDigit = false ∧ isWs a = false ∧ a ≠ ':' := by
  cases p
  · exact ⟨'a', ['m'], rfl, by decide, by decide, by decide⟩
  · exact ⟨'p', ['m'], rfl, by decide, by decide, by decide⟩

lemma meridiemStr_not_colon (p : Meridiem) : ∀ c ∈ meridiemStr p, c ≠ ':' := by
  cases p <;> decide

/-- A `takeWhile`/`dropWhile` characterisation of `\d{1,2}` (with the
digit-run having no digit immediately after it). -/
lemma takeDigits2_eq_some {t d r : List Char} :
    takeDigits2 t = some (d, r) ↔
      t = d ++ r ∧ IsDigits d ∧ (d.length = 1 ∨ d.length = 2) ∧
        r.takeWhile Char.isDigit = [] := by
  constructor
  · intro hm
    simp only [takeDigits2] at hm
    split at hm
    · rename_i hlen
      simp only [Option.some.injEq, Prod.mk.injEq] at hm
      obtain ⟨hd, hr⟩ := hm
      subst hd
      subst hr
      refine ⟨(List.takeWhile_append_dropWhile _ _).symm, ?_, ?_, takeWhile_dropWhile_self _⟩
      · exact fun c hc => List.mem_takeWhile_imp hc
      · simpa [Bool.or_eq_true, decide_eq_true_eq] using hlen
    · exact absurd hm (by simp)
  · rintro ⟨ht, hdig, hlen, hr⟩
    subst ht
    have h1 : (d ++ r).takeWhile Char.isDigit = d := by
      rw [takeWhile_append_of_all r hdig, hr, List.append_nil]
    have h2 : (d ++ r).dropWhile Char.isDigit = r := by
      rw [dropWhile_append_of_all r hdig, dropWhile_eq_self_of_takeWhile_nil hr]
    simp only [takeDigits2, h1, h2]
    rw [if_pos]
    simp only [Bool.or_eq_true, decide_eq_true_eq]
    exact hlen

lemma meridiemFull_eq_some {l : List Char} {p : Meridiem} :
    meridiemFull l = some p ↔ l = meridiemStr p := by
  constructor
  · intro h
    simp only [meridiemFull] at h
    by_cases h1 : l = ['a', 'm']
    · rw [if_pos h1] at h
      injection h with h
      subst h
      exact h1
    · by_cases h2 : l = ['p', 'm']
      · rw [if_neg h1, if_pos h2] at h
        injection h with h
        subst h
        exact h2
      · rw [if_neg h1, if_neg h2] at h
        exact absurd h (by simp)
  · intro h
    subst h
    cases p <;> decide

lemma meridiemAt_append (p : Meridiem) (r : List Char) :
    meridiemAt (meridiemStr p ++ r) = some p := by
  cases p
  · simp only [meridiemAt, meridiemStr]
    rw [if_pos (isPrefixOf_iff_append.mpr ⟨r, rfl⟩)]
  · simp only [meridiemAt, meridiemStr]
    rw [if_neg, if_pos (isPrefixOf_iff_append.mpr ⟨r, rfl⟩)]
    intro hpre
    obtain ⟨tl, htl⟩ := isPrefixOf_iff_append.mp hpre
    simp at htl

lemma dropWhile_ws_append_meridiem (w : List Char) (hw : IsWsRun w) (p : Meridiem)
    (r : List Char) :
    ((w ++ (meridiemStr p ++ r)).dropWhile isWs) = meridiemStr p ++ r := by
  rw [dropWhile_append_of_all _ hw]
  obtain ⟨a, rest, hmer, _, hws, _⟩ := meridiemStr_head_facts p
  rw [hmer]
  simp [List.dropWhile_cons, hws]

/-- The spec's clock-time token grammar
`<hour 1-2 digits>[:<minute 2 digits>]<optional whitespace><am|pm>`
as a full-string decomposition, together with the captured fields. -/
def SpecTimeTok (t : List Char) (h m : ℕ) (p : Meridiem) : Prop :=
  (∃ d w, t = d ++ w ++ meridiemStr p ∧ d ≠ [] ∧ d.length ≤ 2 ∧ IsDigits d ∧
      IsWsRun w ∧ h = digitsVal d ∧ m = 0) ∨
  (∃ d mm w, t = d ++ ':' :: (mm ++ w ++ meridiemStr p) ∧ d ≠ [] ∧ d.length ≤ 2 ∧
      IsDigits d ∧ mm.length = 2 ∧ IsDigits mm ∧ IsWsRun w ∧
      h = digitsVal d ∧ m = digitsVal mm)

lemma matchTimeBareFull_eq_some {t : List Char} {h m : ℕ} {p : Meridiem} :
    matchTimeBareFull t = some (h, m, p) ↔
      ∃ d w, t = d ++ w ++ meridiemStr p ∧ d ≠ [] ∧ d.length ≤ 2 ∧ IsDigits d ∧
        IsWsRun w ∧ h = digitsVal d ∧ m = 0 := by
  constructor
  · intro hm0
    rcases htd : takeDigits2 t with _ | ⟨d, r1⟩
    · simp only [matchTimeBareFull, htd] at hm0
      exact absurd hm0 (by simp)
    · simp only [matchTimeBareFull, htd] at hm0
      rcases hmer : meridiemFull (r1.dropWhile isWs) with _ | p0
      · rw [hmer] at hm0
        exact absurd hm0 (by simp)
      · rw [hmer] at hm0
        simp only [Option.some.injEq, Prod.mk.injEq] at hm0
        obtain ⟨hh, hm1, hp⟩ := hm0
        subst hh
        subst hp
        obtain ⟨ht, hdig, hlen, _⟩ := takeDigits2_eq_some.mp htd
        have hr1 : r1 = r1.takeWhile isWs ++ meridiemStr p0 := by
          conv_lhs => rw [← List.takeWhile_append_dropWhile isWs r1]
          rw [meridiemFull_eq_some.mp hmer]
        refine ⟨d, r1.takeWhile isWs, ?_, ?_, by rcases hlen with h | h <;> omega, hdig,
          fun c hc => List.mem_takeWhile_imp hc, rfl, hm1.symm⟩
        · rw [ht, List.append_assoc, ← hr1]
        · intro hd0
          subst hd0
          simp at hlen
  · rintro ⟨d, w, ht, hne, hlen, hdig, hws, hh, hm0⟩
    subst ht hh hm0
    have htd : takeDigits2 (d ++ w ++ meridiemStr p) = some (d, w ++ meridiemStr p) := by
      rw [List.append_assoc]
      refine takeDigits2_eq_some.mpr ⟨rfl, hdig, ?_, ?_⟩
      · rcases d with _ | ⟨c, cs⟩
        · exact absurd rfl hne
        · rcases cs with _ | ⟨c2, cs2⟩
          · exact Or.inl rfl
          · right
            simp only [List.length_cons] at hlen ⊢
            omega
      · rcases hw0 : w with _ | ⟨c, cs⟩
        · obtain ⟨a, rest, hmer, hda, _, _⟩ := meridiemStr_head_facts p
          simp [hmer, List.takeWhile_cons, hda]
        · have : isWs c = true := hws c (by rw [hw0]; exact List.mem_cons_self c cs)
          simp [List.takeWhile_cons, isWs_not_digit this]
    simp only [matchTimeBareFull, htd]
    rw [show (w ++ meridiemStr p).dropWhile isWs = meridiemStr p by
      simpa using dropWhile_ws_append_meridiem w hws p []]
    rw [meridiemFull_eq_some.mpr rfl]

lemma matchTimeColonFull_eq_some {t : List Char} {h m : ℕ} {p : Meridiem} :
    matchTimeColonFull t = some (h, m, p) ↔
      ∃ d mm w, t = d ++ ':' :: (mm ++ w ++ meridiemStr p) ∧ d ≠ [] ∧ d.length ≤ 2 ∧
        IsDigits d ∧ mm.length = 2 ∧ IsDigits mm ∧ IsWsRun w ∧
        h = digitsVal d ∧ m = digitsVal mm := by
  constructor
  · intro hm0
    rcases htd : takeDigits2 t with _ | ⟨d, r1⟩
    · simp only [matchTimeColonFull, htd] at hm0
      exact absurd hm0 (by simp)
    · simp only [matchTimeColonFull, htd] at hm0
      rcases r1 with _ | ⟨c, r1a⟩
      · exact absurd hm0 (by simp)
      rcases r1a with _ | ⟨m1, r1b⟩
      · exact absurd hm0 (by simp)
      rcases r1b with _ | ⟨m2, r2⟩
      · exact absurd hm0 (by simp)
      simp only [] at hm0
      by_cases hcond : c = ':' ∧ m1.isDigit = true ∧ m2.isDigit = true
      · rw [if_pos hcond] at hm0
        obtain ⟨hc, hd1, hd2⟩ := hcond
        subst hc
        rcases hmer : meridiemFull (r2.dropWhile isWs) with _ | p0
        · rw [hmer] at hm0
          exact absurd hm0 (by simp)
        rw [hmer] at hm0
        simp only [Option.some.injEq, Prod.mk.injEq] at hm0
        obtain ⟨hh, hm1, hp⟩ := hm0
        subst hh
        subst hm1
        subst hp
        obtain ⟨ht, hdig, hlen, _⟩ := takeDigits2_eq_some.mp htd
        have hr2 : r2 = r2.takeWhile isWs ++ meridiemStr p0 := by
          conv_lhs => rw [← List.takeWhile_append_dropWhile isWs r2]
          rw [meridiemFull_eq_some.mp hmer]
        refine ⟨d, [m1, m2], r2.takeWhile isWs, ?_, ?_,
          by rcases hlen with h | h <;> omega, hdig, by simp, ?_,
          fun c hc => List.mem_takeWhile_imp hc, rfl, rfl⟩
        · rw [ht]
          simp only [List.cons_append, List.nil_append, List.append_assoc]
          rw [← hr2]
        · intro hd0
          subst hd0
          simp at hlen
        · intro c hc
          simp only [List.mem_cons, List.not_mem_nil, or_false] at hc
          rcases hc with rfl | rfl
          · exact hd1
          · exact hd2
      · rw [if_neg hcond] at hm0
        exact absurd hm0 (by simp)
  · rintro ⟨d, mm, w, ht, hne, hlen, hdig, hmm2, hmmdig, hws, hh, hm0⟩
    obtain ⟨m1, m2, rfl⟩ := List.length_eq_two.mp hmm2
    subst hh
    subst hm0
    simp only [List.cons_append, List.nil_append, List.append_assoc] at ht
    subst ht
    have htd : takeDigits2 (d ++ ':' :: m1 :: m2 :: (w ++ meridiemStr p)) =
        some (d, ':' :: m1 :: m2 :: (w ++ meridiemStr p)) := by
      refine takeDigits2_eq_some.mpr ⟨rfl, hdig, ?_, by simp [List.takeWhile_cons]⟩
      rcases d with _ | ⟨c, cs⟩
      · exact absurd rfl hne
      · rcases cs with _ | ⟨c2, cs2⟩
        · exact Or.inl rfl
        · right
          simp only [List.length_cons] at hlen ⊢
          omega
    have hd1 : m1.isDigit = true := hmmdig m1 (by simp)
    have hd2 : m2.isDigit = true := hmmdig m2 (by simp)
    simp only [matchTimeColonFull, htd]
    rw [if_pos (show True ∧ m1.isDigit = true ∧ m2.isDigit = true from ⟨trivial, hd1, hd2⟩)]
    rw [show (w ++ meridiemStr p).dropWhile isWs = meridiemStr p by
      simpa using dropWhile_ws_append_meridiem w hws p []]
    rw [meridiemFull_eq_some.mpr rfl]

lemma specBare_no_colon {d w : List Char} {p : Meridiem} (hdig : IsDigits d)
    (hws : IsWsRun w) : ':' ∉ d ++ w ++ meridiemStr p := by
  intro hmem
  rcases List.mem_append.mp hmem with hmem | hmem
  · rcases List.mem_append.mp hmem with hmem | hmem
    · exact absurd (hdig _ hmem) (by decide)
    · exact absurd (hws _ hmem) (by decide)
  · exact meridiemStr_not_colon p _ hmem rfl

lemma timeFieldsFull_eq_some {t : List Char} {h m : ℕ} {p : Meridiem} :
    timeFieldsFull t = some (h, m, p) ↔ SpecTimeTok t h m p := by
  unfold timeFieldsFull SpecTimeTok
  by_cases hc : ':' ∈ t
  · rw [if_pos hc, matchTimeColonFull_eq_some]
    constructor
    · exact Or.inr
    · rintro (⟨d, w, ht, _, _, hdig, hws, _, _⟩ | hcol)
      · rw [ht] at hc
        exact absurd hc (specBare_no_colon hdig hws)
      · exact hcol
  · rw [if_neg hc, matchTimeBareFull_eq_some]
    constructor
    · exact Or.inl
    · rintro (hbare | ⟨d, mm, w, ht, _⟩)
      · exact hbare
      · rw [ht] at hc
        exact absurd (by simp) hc

lemma timeFieldsFull_eq_none {t : List Char} :
    timeFieldsFull t = none ↔ ∀ h m p, ¬ SpecTimeTok t h m p := by
  constructor
  · intro h0 h m p hspec
    rw [← timeFieldsFull_eq_some] at hspec
    rw [h0] at hspec
    exact absurd hspec (by simp)
  · intro hall
    rcases heq : timeFieldsFull t with _ | ⟨⟨h, m, p⟩⟩
    · rfl
    · exact absurd (timeFieldsFull_eq_some.mp heq) (hall h m p)

lemma takeDigits2_of_decomp {d r : List Char} (hne : d ≠ []) (hlen : d.length ≤ 2)
    (hdig : IsDigits d) (hr : r.takeWhile Char.isDigit = []) :
    takeDigits2 (d ++ r) = some (d, r) := by
  refine takeDigits2_eq_some.mpr ⟨rfl, hdig, ?_, hr⟩
  rcases d with _ | ⟨c, cs⟩
  · exact absurd rfl hne
  rcases cs with _ | ⟨c2, cs2⟩
  · exact Or.inl rfl
  · right
    simp only [List.length_cons] at hlen ⊢
    omega

lemma takeWhile_digit_ws_mer_nil {w : List Char} (hws : IsWsRun w) (p : Meridiem)
    (r : List Char) :
    ((w ++ (meridiemStr p ++ r)).takeWhile Char.isDigit) = [] := by
  rcases hw0 : w with _ | ⟨c, cs⟩
  · obtain ⟨a, rest, hmer, hda, _, _⟩ := meridiemStr_head_facts p
    simp [hmer, List.takeWhile_cons, hda]
  · have : isWs c = true := hws c (by rw [hw0]; exact List.mem_cons_self c cs)
    simp [List.takeWhile_cons, isWs_not_digit this]

/-- A full-grammar clock-time token is also accepted by the start-anchored
regexes of `parse_reset_time`, with the same captured fields. -/
lemma timeFieldsAt_of_spec {t : List Char} {h m : ℕ} {p : Meridiem}
    (hspec : SpecTimeTok t h m p) : timeFieldsAt t = some (h, m, p) := by
  unfold timeFieldsAt
  rcases hspec with ⟨d, w, ht, hne, hlen, hdig, hws, hh, hm0⟩ |
    ⟨d, mm, w, ht, hne, hlen, hdig, hmm2, hmmdig, hws, hh, hm0⟩
  · rw [if_neg (by rw [ht]; exact specBare_no_colon hdig hws)]
    subst hh
    subst hm0
    subst ht
    have htd : takeDigits2 (d ++ w ++ meridiemStr p) = some (d, w ++ meridiemStr p) := by
      rw [List.append_assoc]
      exact takeDigits2_of_decomp hne hlen hdig
        (by simpa using takeWhile_digit_ws_mer_nil hws p [])
    simp only [matchTimeBareAt, htd]
    rw [show (w ++ meridiemStr p).dropWhile isWs = meridiemStr p by
      simpa using dropWhile_ws_append_meridiem w hws p []]
    rw [show meridiemAt (meridiemStr p) = some p by
      simpa using meridiemAt_append p []]
  · rw [if_pos (by rw [ht]; simp)]
    obtain ⟨m1, m2, rfl⟩ := List.length_eq_two.mp hmm2
    subst hh
    subst hm0
    simp only [List.cons_append, List.nil_append, List.append_assoc] at ht
    subst ht
    have htd : takeDigits2 (d ++ ':' :: m1 :: m2 :: (w ++ meridiemStr p)) =
        some (d, ':' :: m1 :: m2 :: (w ++ meridiemStr p)) :=
      takeDigits2_of_decomp hne hlen hdig (by simp [List.takeWhile_cons])
    have hd1 : m1.isDigit = true := hmmdig m1 (by simp)
    have hd2 : m2.isDigit = true := hmmdig m2 (by simp)
    simp only [matchTimeColonAt, htd]
    rw [if_pos (show True ∧ m1.isDigit = true ∧ m2.isDigit = true from ⟨trivial, hd1, hd2⟩)]
    rw [show (w ++ meridiemStr p).dropWhile isWs = meridiemStr p by
      simpa using dropWhile_ws_append_meridiem w hws p []]
    rw [show meridiemAt (meridiemStr p) = some p by
      simpa using meridiemAt_append p []]

/-! ### Duration grammar -/

/-- The unit multiplier of `parse_duration`'s branch on the matched unit. -/
def unitMult (unit : List Char) : ℕ :=
  if unit ∈ durationUnitsHours then 3600
  else if unit ∈ durationUnitsMinutes then 60
  else 1

/-- The spec's duration grammar
`<number with optional fractional part><optional whitespace><unit>` as a
full-string decomposition: `d` the integer digits, `f` the fractional
digits (empty when there is no fractional part), `unit` the unit. -/
def SpecDurTok (t d f unit : List Char) : Prop :=
  d ≠ [] ∧ IsDigits d ∧ unit ∈ durationUnitsAll ∧
  ((f = [] ∧ ∃ w, IsWsRun w ∧ t = d ++ w ++ unit) ∨
   (f ≠ [] ∧ IsDigits f ∧ ∃ w, IsWsRun w ∧ t = d ++ '.' :: (f ++ w ++ unit)))

lemma unit_head_ne_dot {u : List Char} (hu : u ∈ durationUnitsAll) :
    u.head? ≠ some '.' := by
  fin_cases hu <;> decide

lemma unit_takeWhile_ws_nil {u : List Char} (hu : u ∈ durationUnitsAll) :
    u.takeWhile isWs = [] := by
  fin_cases hu <;> decide

lemma unit_takeWhile_digit_nil {u : List Char} (hu : u ∈ durationUnitsAll) :
    u.takeWhile Char.isDigit = [] := by
  fin_cases hu <;> decide

lemma isWs_ne_dot {c : Char} (h : isWs c = true) : c ≠ '.' := by
  intro hc
  subst hc
  simp [isWs] at h

lemma takeWhile_append_nil {p : Char → Bool} {w u : List Char}
    (hw : ∀ c ∈ w, p c = false) (hu : u.takeWhile p = []) :
    (w ++ u).takeWhile p = [] := by
  rcases w with _ | ⟨c, cs⟩
  · simpa using hu
  · simp [List.takeWhile_cons, hw c (List.mem_cons_self c cs)]

lemma matchDurationFull_eq_some {t d f unit : List Char} :
    matchDurationFull t = some (d, f, unit) ↔ SpecDurTok t d f unit := by
  constructor
  · intro hm
    simp only [matchDurationFull] at hm
    by_cases hlen : (t.takeWhile Char.isDigit).length = 0
    · rw [if_pos hlen] at hm
      exact absurd hm (by simp)
    rw [if_neg hlen] at hm
    have hne : t.takeWhile Char.isDigit ≠ [] := by
      intro h0
      rw [h0] at hlen
      exact hlen rfl
    rcases hr1 : t.dropWhile Char.isDigit with _ | ⟨c, r⟩
    · rw [hr1] at hm
      simp [durationUnitsAll, durationUnitsHours, durationUnitsMinutes,
        durationUnitsSeconds] at hm
    · rw [hr1] at hm
      simp only [List.head?_cons, List.tail_cons, Option.some.injEq] at hm
      by_cases hdot : c = '.' ∧ (r.takeWhile Char.isDigit).length ≠ 0
      · rw [if_pos hdot] at hm
        obtain ⟨hc, hfne⟩ := hdot
        subst hc
        simp only [] at hm
        by_cases hmem : ((r.dropWhile Char.isDigit).dropWhile isWs) ∈ durationUnitsAll
        · rw [if_pos hmem] at hm
          simp only [Option.some.injEq, Prod.mk.injEq] at hm
          obtain ⟨hd, hf, hu⟩ := hm
          subst hd
          subst hf
          subst hu
          refine ⟨hne, fun x hx => List.mem_takeWhile_imp hx, hmem,
            Or.inr ⟨?_, fun x hx => List.mem_takeWhile_imp hx,
              (r.dropWhile Char.isDigit).takeWhile isWs,
              fun x hx => List.mem_takeWhile_imp hx, ?_⟩⟩
          · intro h0
            rw [h0] at hfne
            exact hfne rfl
          · conv_lhs => rw [← List.takeWhile_append_dropWhile Char.isDigit t, hr1]
            rw [List.append_assoc]
            congr 2
            conv_lhs => rw [← List.takeWhile_append_dropWhile Char.isDigit r]
            congr 1
            exact (List.takeWhile_append_dropWhile isWs _).symm
        · rw [if_neg hmem] at hm
          exact absurd hm (by simp)
      · rw [if_neg hdot] at hm
        simp only [] at hm
        by_cases hmem : ((c :: r).dropWhile isWs) ∈ durationUnitsAll
        · rw [if_pos hmem] at hm
          simp only [Option.some.injEq, Prod.mk.injEq] at hm
          obtain ⟨hd, hf, hu⟩ := hm
          subst hd
          subst hu
          refine ⟨hne, fun x hx => List.mem_takeWhile_imp hx, hmem,
            Or.inl ⟨hf.symm, (c :: r).takeWhile isWs,
              fun x hx => List.mem_takeWhile_imp hx, ?_⟩⟩
          conv_lhs => rw [← List.takeWhile_append_dropWhile Char.isDigit t, hr1]
          rw [List.append_assoc]
          congr 1
          exact (List.takeWhile_append_dropWhile isWs (c :: r)).symm
        · rw [if_neg hmem] at hm
          exact absurd hm (by simp)
  · rintro ⟨hdne, hdig, hmem, hrest⟩
    have hdigf : ∀ x ∈ d, Char.isDigit x = true := hdig
    rcases hrest with ⟨hf0, w, hws, ht⟩ | ⟨hfne, hfdig, w, hws, ht⟩
    · subst hf0
      subst ht
      have hwnd : ∀ x ∈ w, Char.isDigit x = false :=
        fun x hx => isWs_not_digit (hws x hx)
      have h1 : ((d ++ w ++ unit).takeWhile Char.isDigit) = d := by
        rw [List.append_assoc, takeWhile_append_of_all _ hdigf,
          takeWhile_append_nil hwnd (unit_takeWhile_digit_nil hmem), List.append_nil]
      have h2 : ((d ++ w ++ unit).dropWhile Char.isDigit) = w ++ unit := by
        rw [List.append_assoc, dropWhile_append_of_all _ hdigf,
          dropWhile_eq_self_of_takeWhile_nil
            (takeWhile_append_nil hwnd (unit_takeWhile_digit_nil hmem))]
      have hcond : ¬((w ++ unit).head? = some '.' ∧
          ((w ++ unit).tail.takeWhile Char.isDigit).length ≠ 0) := by
        rintro ⟨hhd, _⟩
        rcases hw0 : w with _ | ⟨cw, cs⟩
        · rw [hw0] at hhd
          simp only [List.nil_append] at hhd
          exact unit_head_ne_dot hmem hhd
        · rw [hw0] at hhd
          simp only [List.cons_append, List.head?_cons, Option.some.injEq] at hhd
          exact isWs_ne_dot (hws cw (by rw [hw0]; exact List.mem_cons_self cw cs)) hhd
      have h3 : ((w ++ unit).dropWhile isWs) = unit := by
        rw [dropWhile_append_of_all _ hws,
          dropWhile_eq_self_of_takeWhile_nil (unit_takeWhile_ws_nil hmem)]
      simp only [matchDurationFull, h1, h2]
      rw [if_neg (by simp [List.length_eq_zero, hdne]), if_neg hcond]
      simp only [h3]
      rw [if_pos hmem]
    · subst ht
      have hwnd : ∀ x ∈ w, Char.isDigit x = false :=
        fun x hx => isWs_not_digit (hws x hx)
      have hfdigf : ∀ x ∈ f, Char.isDigit x = true := hfdig
      have h1 : ((d ++ '.' :: (f ++ w ++ unit)).takeWhile Char.isDigit) = d := by
        rw [takeWhile_append_of_all _ hdigf]
        simp [List.takeWhile_cons]
      have h2 : ((d ++ '.' :: (f ++ w ++ unit)).dropWhile Char.isDigit) =
          '.' :: (f ++ w ++ unit) := by
        rw [dropWhile_append_of_all _ hdigf]
        simp [List.dropWhile_cons]
      have h4 : ((f ++ w ++ unit).takeWhile Char.isDigit) = f := by
        rw [List.append_assoc, takeWhile_append_of_all _ hfdigf,
          takeWhile_append_nil hwnd (unit_takeWhile_digit_nil hmem), List.append_nil]
      have h5 : ((f ++ w ++ unit).dropWhile Char.isDigit) = w ++ unit := by
        rw [List.append_assoc, dropWhile_append_of_all _ hfdigf,
          dropWhile_eq_self_of_takeWhile_nil
            (takeWhile_append_nil hwnd (unit_takeWhile_digit_nil hmem))]
      have h3 : ((w ++ unit).dropWhile isWs) = unit := by
        rw [dropWhile_append_of_all _ hws,
          dropWhile_eq_self_of_takeWhile_nil (unit_takeWhile_ws_nil hmem)]
      simp only [matchDurationFull, h1, h2, List.head?_cons, List.tail_cons, h4, h5]
      rw [if_neg (by simp [List.length_eq_zero, hdne]),
        if_pos (show True ∧ f.length ≠ 0 from
          ⟨trivial, by simp [List.length_eq_zero, hfne]⟩)]
      simp only [h3]
      rw [if_pos hmem]

lemma matchDurationFull_eq_none {t : List Char} :
    matchDurationFull t = none ↔ ∀ d f unit, ¬ SpecDurTok t d f unit := by
  constructor
  · intro h0 d f unit hspec
    rw [← matchDurationFull_eq_some] at hspec
    rw [h0] at hspec
    exact absurd hspec (by simp)
  · intro hall
    rcases heq : matchDurationFull t with _ | ⟨⟨d, f, u⟩⟩
    · rfl
    · exact absurd (matchDurationFull_eq_some.mp heq) (hall d f u)

/-! ### Exactness of the binary64 pipeline on small integers -/

lemma natLog2F_pow_le : ∀ (fuel n : ℕ), 1 ≤ n → 2 ^ natLog2F fuel n ≤ n := by
  intro fuel
  induction fuel with
  | zero =>
    intro n h
    simpa [natLog2F] using h
  | succ fuel ih =>
    intro n h
    by_cases h2 : 2 ≤ n
    · have hn2 : 1 ≤ n / 2 := (Nat.one_le_div_iff (by norm_num)).mpr h2
      have hstep := ih (n / 2) hn2
      simp only [natLog2F, if_pos h2]
      calc 2 ^ (natLog2F fuel (n / 2) + 1) = 2 ^ natLog2F fuel (n / 2) * 2 := by ring
        _ ≤ (n / 2) * 2 := Nat.mul_le_mul_right 2 hstep
        _ ≤ n := by omega
    · simp only [natLog2F, if_neg h2]
      simpa using h

lemma pow_natLog2_le {n : ℕ} (h : 1 ≤ n) : 2 ^ natLog2 n ≤ n :=
  natLog2F_pow_le n n h

lemma halfEvenDiv_mul_cancel (x b : ℕ) (hb : 0 < b) : halfEvenDiv (x * b) b = x := by
  simp only [halfEvenDiv]
  rw [Nat.mul_div_cancel x hb, Nat.mul_mod_left]
  rw [if_pos (by omega)]

lemma roundDouble_int_shape (n : ℕ) (h1 : 1 ≤ n) (h2 : n ≤ 2 ^ 53) :
    (natLog2 n ≤ 52 ∧
      roundDouble n 1 = .finite (n * 2 ^ (52 - natLog2 n)) ((natLog2 n : ℤ) - 52)) ∨
    (n = 2 ^ 53 ∧ roundDouble n 1 = .finite (2 ^ 52) 1) := by
  have hne : ¬ (n = 0) := by omega
  have hlog : ratFloorLog2 n 1 = (natLog2 n : ℤ) := by
    rw [ratFloorLog2, if_pos h1, Nat.div_one]
  have hLle : 2 ^ natLog2 n ≤ n := pow_natLog2_le h1
  have hL53 : natLog2 n ≤ 53 :=
    (Nat.pow_le_pow_iff_right (by norm_num)).mp (le_trans hLle h2)
  have hmax : max ((natLog2 n : ℤ)) (-1022) = (natLog2 n : ℤ) := max_eq_left (by omega)
  by_cases hL : natLog2 n ≤ 52
  · left
    refine ⟨hL, ?_⟩
    have htn : ((52 : ℤ) - (natLog2 n : ℤ)).toNat = 52 - natLog2 n := by omega
    have hrs : roundScaled n 1 (52 - (natLog2 n : ℤ)) = n * 2 ^ (52 - natLog2 n) := by
      rw [roundScaled, if_pos (by omega : (0:ℤ) ≤ 52 - (natLog2 n : ℤ)), htn]
      simpa using halfEvenDiv_mul_cancel (n * 2 ^ (52 - natLog2 n)) 1 one_pos
    simp only [roundDouble, hlog, hmax]
    rw [if_neg hne, if_neg (by omega : ¬ (1025 ≤ (natLog2 n : ℤ))), hrs,
      if_pos (by omega : (natLog2 n : ℤ) ≤ 970)]
  · right
    have hL53' : natLog2 n = 53 := by omega
    have hn : n = 2 ^ 53 := by
      refine le_antisymm h2 ?_
      calc (2:ℕ) ^ 53 = 2 ^ natLog2 n := by rw [hL53']
        _ ≤ n := hLle
    refine ⟨hn, ?_⟩
    have hrs : roundScaled n 1 (52 - (natLog2 n : ℤ)) = 2 ^ 52 := by
      rw [roundScaled, if_neg (by omega : ¬ (0:ℤ) ≤ 52 - (natLog2 n : ℤ))]
      rw [show (1 * 2 ^ (-(52 - (natLog2 n : ℤ))).toNat) = 2 by rw [hL53']; norm_num]
      rw [hn, show (2:ℕ) ^ 53 = 2 ^ 52 * 2 by norm_num]
      exact halfEvenDiv_mul_cancel (2 ^ 52) 2 (by norm_num)
    simp only [roundDouble, hlog, hmax]
    rw [if_neg hne, if_neg (by omega : ¬ (1025 ≤ (natLog2 n : ℤ))), hrs,
      if_pos (by omega : (natLog2 n : ℤ) ≤ 970),
      show (natLog2 n : ℤ) - 52 = 1 by rw [hL53']; norm_num]

lemma roundDouble_int_pow (x s : ℕ) (h1 : 1 ≤ x) (h2 : x ≤ 2 ^ 53) :
    floatTruncInt (roundDouble (x * 2 ^ s) (2 ^ s)) = some x := by
  have hbpos : 0 < (2:ℕ) ^ s := Nat.pos_pow_of_pos s (by norm_num)
  have hane : ¬ (x * 2 ^ s = 0) := by positivity
  have hdiv : (x * 2 ^ s) / (2 ^ s) = x := Nat.mul_div_cancel x hbpos
  have hlog : ratFloorLog2 (x * 2 ^ s) (2 ^ s) = (natLog2 x : ℤ) := by
    rw [ratFloorLog2, if_pos (Nat.le_mul_of_pos_left _ (by omega)), hdiv]
  have hLle : 2 ^ natLog2 x ≤ x := pow_natLog2_le h1
  have hL53 : natLog2 x ≤ 53 :=
    (Nat.pow_le_pow_iff_right (by norm_num)).mp (le_trans hLle h2)
  have hmax : max ((natLog2 x : ℤ)) (-1022) = (natLog2 x : ℤ) := max_eq_left (by omega)
  by_cases hL : natLog2 x ≤ 52
  · have htn : ((52 : ℤ) - (natLog2 x : ℤ)).toNat = 52 - natLog2 x := by omega
    have hrs : roundScaled (x * 2 ^ s) (2 ^ s) (52 - (natLog2 x : ℤ)) =
        x * 2 ^ (52 - natLog2 x) := by
      rw [roundScaled, if_pos (by omega : (0:ℤ) ≤ 52 - (natLog2 x : ℤ)), htn]
      rw [show x * 2 ^ s * 2 ^ (52 - natLog2 x) = (x * 2 ^ (52 - natLog2 x)) * 2 ^ s by ring]
      exact halfEvenDiv_mul_cancel _ _ hbpos
    simp only [roundDouble, hlog, hmax]
    rw [if_neg hane, if_neg (by omega : ¬ (1025 ≤ (natLog2 x : ℤ))), hrs,
      if_pos (by omega : (natLog2 x : ℤ) ≤ 970)]
    simp only [floatTruncInt]
    by_cases hL52 : natLog2 x = 52
    · rw [if_pos (by omega : (0:ℤ) ≤ (natLog2 x : ℤ) - 52)]
      rw [hL52]
      norm_num
    · rw [if_neg (by omega : ¬ (0:ℤ) ≤ (natLog2 x : ℤ) - 52)]
      rw [show ((-((natLog2 x : ℤ) - 52)).toNat) = 52 - natLog2 x by omega]
      rw [Nat.mul_div_cancel x (Nat.pos_pow_of_pos _ (by norm_num))]
  · have hL53' : natLog2 x = 53 := by omega
    have hx : x = 2 ^ 53 := by
      refine le_antisymm h2 ?_
      calc (2:ℕ) ^ 53 = 2 ^ natLog2 x := by rw [hL53']
        _ ≤ x := hLle
    have hrs : roundScaled (x * 2 ^ s) (2 ^ s) (52 - (natLog2 x : ℤ)) = 2 ^ 52 := by
      rw [roundScaled, if_neg (by omega : ¬ (0:ℤ) ≤ 52 - (natLog2 x : ℤ))]
      rw [show ((-(52 - (natLog2 x : ℤ))).toNat) = 1 by omega]
      rw [show x * 2 ^ s = 2 ^ 52 * (2 ^ s * 2 ^ 1) by rw [hx]; ring]
      exact halfEvenDiv_mul_cancel _ _ (by positivity)
    simp only [roundDouble, hlog, hmax]
    rw [if_neg hane, if_neg (by omega : ¬ (1025 ≤ (natLog2 x : ℤ))), hrs,
      if_pos (by omega : (natLog2 x : ℤ) ≤ 970)]
    simp only [floatTruncInt]
    rw [if_pos (by omega : (0:ℤ) ≤ (natLog2 x : ℤ) - 52)]
    rw [show (((natLog2 x : ℤ) - 52).toNat) = 1 by omega, hx]
    norm_num

/-- End-to-end: on an integer token whose product with the unit
multiplier stays within 2^53, the float pipeline is exact. -/
lemma float_pipeline_int_exact (N k : ℕ) (hk : 1 ≤ k) (hle : N * k ≤ 2 ^ 53) :
    floatTruncInt (floatMulNat (roundDouble N 1) k) = some (N * k) := by
  rcases Nat.eq_zero_or_pos N with hN0 | hNpos
  · subst hN0
    simp [roundDouble, floatMulNat, floatTruncInt]
  · have hN53 : N ≤ 2 ^ 53 := by
      calc N = N * 1 := by ring
        _ ≤ N * k := Nat.mul_le_mul_left N hk
        _ ≤ 2 ^ 53 := hle
    have hNk1 : 1 ≤ N * k := Nat.one_le_iff_ne_zero.mpr (by positivity)
    rcases roundDouble_int_shape N hNpos hN53 with ⟨hL52, hrd⟩ | ⟨hN, hrd⟩
    · rw [hrd]
      simp only [floatMulNat]
      by_cases hL : natLog2 N = 52
      · rw [if_pos (by omega : (0:ℤ) ≤ (natLog2 N : ℤ) - 52)]
        rw [show N * 2 ^ (52 - natLog2 N) * k * 2 ^ (((natLog2 N : ℤ) - 52).toNat) =
          (N * k) * 2 ^ 0 by rw [hL]; norm_num]
        rw [show (1:ℕ) = 2 ^ 0 from rfl]
        exact roundDouble_int_pow (N * k) 0 hNk1 hle
      · rw [if_neg (by omega : ¬ (0:ℤ) ≤ (natLog2 N : ℤ) - 52)]
        rw [show ((-((natLog2 N : ℤ) - 52)).toNat) = 52 - natLog2 N by omega]
        rw [show N * 2 ^ (52 - natLog2 N) * k = (N * k) * 2 ^ (52 - natLog2 N) by ring]
        exact roundDouble_int_pow (N * k) (52 - natLog2 N) hNk1 hle
    · have hk1 : k = 1 := by
        rw [hN] at hle
        have : (2:ℕ) ^ 53 ≤ 2 ^ 53 * k := Nat.le_mul_of_pos_right _ (by omega)
        omega
      subst hk1
      rw [hrd]
      simp only [floatMulNat]
      rw [if_pos (by omega : (0:ℤ) ≤ (1:ℤ))]
      rw [show (2:ℕ) ^ 52 * 1 * 2 ^ (((1:ℤ)).toNat) = (2 ^ 53) * 2 ^ 0 by norm_num]
      rw [show (1:ℕ) = 2 ^ 0 from rfl]
      rw [roundDouble_int_pow (2 ^ 53) 0 (by norm_num) (le_refl _)]
      rw [hN]
      norm_num

/-! ### Detection lemmas -/

lemma searchAny_iff {m : List Char → Bool} {l : List Char} :
    searchAny m l = true ↔ ∃ a b, l = a ++ b ∧ m b = true := by
  induction l with
  | nil =>
    simp only [searchAny]
    constructor
    · intro h
      exact ⟨[], [], rfl, h⟩
    · rintro ⟨a, b, hab, hb⟩
      rcases List.append_eq_nil.mp hab.symm with ⟨rfl, rfl⟩
      exact hb
  | cons c rest ih =>
    simp only [searchAny, Bool.or_eq_true]
    constructor
    · rintro (h | h)
      · exact ⟨[], c :: rest, rfl, h⟩
      · obtain ⟨a, b, hab, hb⟩ := ih.mp h
        exact ⟨c :: a, b, by rw [List.cons_append, hab], hb⟩
    · rintro ⟨a, b, hab, hb⟩
      rcases a with _ | ⟨a0, as⟩
      · left
        rw [List.nil_append] at hab
        rw [hab]
        exact hb
      · right
        rw [List.cons_append] at hab
        injection hab with h1 h2
        exact ih.mpr ⟨as, b, h2, hb⟩

lemma litAt_iff {pat l : List Char} : litAt pat l = true ↔ ∃ r, l = pat ++ r := by
  simp only [litAt]
  exact isPrefixOf_iff_append

lemma afterLit_eq_some {pat l r : List Char} :
    afterLit pat l = some r ↔ l = pat ++ r := by
  simp only [afterLit]
  by_cases hp : pat.isPrefixOf l
  · rw [if_pos hp]
    obtain ⟨r0, hr0⟩ := isPrefixOf_iff_append.mp hp
    constructor
    · intro h
      injection h with h
      rw [← h, hr0, List.drop_left]
    · intro h
      rw [h, List.drop_left]
  · rw [if_neg hp]
    constructor
    · intro h
      exact absurd h (by simp)
    · intro h
      exact absurd (isPrefixOf_iff_append.mpr ⟨r, h⟩) hp

lemma afterWs1_eq_some {l r : List Char} :
    afterWs1 l = some r ↔
      ∃ w, l = w ++ r ∧ w ≠ [] ∧ IsWsRun w ∧ r.takeWhile isWs = [] := by
  constructor
  · intro h
    rcases l with _ | ⟨c, rest⟩
    · exact absurd h (by simp [afterWs1])
    · simp only [afterWs1] at h
      by_cases hc : isWs c = true
      · rw [if_pos hc] at h
        injection h with h
        refine ⟨c :: rest.takeWhile isWs, ?_, by simp, ?_, ?_⟩
        · rw [← h, List.cons_append, List.takeWhile_append_dropWhile]
        · intro x hx
          rcases List.mem_cons.mp hx with rfl | hx
          · exact hc
          · exact List.mem_takeWhile_imp hx
        · rw [← h]
          exact takeWhile_dropWhile_self rest
      · rw [if_neg hc] at h
        exact absurd h (by simp)
  · rintro ⟨w, rfl, hne, hws, hr⟩
    rcases w with _ | ⟨c, ws⟩
    · exact absurd rfl hne
    · simp only [List.cons_append, afterWs1]
      rw [if_pos (hws c (List.mem_cons_self c ws))]
      rw [dropWhile_append_of_all _ (fun x hx => hws x (List.mem_cons_of_mem c hx))]
      rw [dropWhile_eq_self_of_takeWhile_nil hr]

lemma takeWhile_ws_nil_of_cons {c : Char} (hc : ¬ isWs c = true) (rest : List Char) :
    ((c :: rest).takeWhile isWs) = [] := by
  rw [List.takeWhile_cons, if_neg hc]

lemma rateLimitAt_iff {l : List Char} :
    rateLimitAt l = true ↔
      ∃ w r, l = "rate".toList ++ w ++ "limit".toList ++ r ∧ IsWsRun w := by
  constructor
  · intro h
    rcases hal : afterLit "rate".toList l with _ | r0
    · simp only [rateLimitAt, hal] at h
      exact absurd h (by simp)
    · simp only [rateLimitAt, hal] at h
      obtain ⟨r, hr⟩ := isPrefixOf_iff_append.mp h
      refine ⟨r0.takeWhile isWs, r, ?_, fun c hc => List.mem_takeWhile_imp hc⟩
      rw [afterLit_eq_some.mp hal]
      simp only [List.append_assoc]
      congr 1
      conv_lhs => rw [← List.takeWhile_append_dropWhile isWs r0]
      rw [hr]
  · rintro ⟨w, r, rfl, hws⟩
    have hal : afterLit "rate".toList
        ("rate".toList ++ w ++ "limit".toList ++ r) =
        some (w ++ ("limit".toList ++ r)) :=
      afterLit_eq_some.mpr (by simp [List.append_assoc])
    simp only [rateLimitAt, hal]
    rw [dropWhile_append_of_all _ hws]
    rw [show "limit".toList ++ r = 'l' :: ("imit".toList ++ r) from rfl]
    rw [List.dropWhile_cons, if_neg (by decide)]
    rw [show ('l' :: ("imit".toList ++ r)) = "limit".toList ++ r from rfl]
    exact isPrefixOf_iff_append.mpr ⟨r, rfl⟩

lemma stopAndWaitAt_iff {l : List Char} :
    stopAndWaitAt l = true ↔
      ∃ w1 w2 w3 w4 tl r, l = "stop".toList ++ w1 ++ "and".toList ++ w2 ++
          "wait".toList ++ w3 ++ "for".toList ++ w4 ++ tl ++ r ∧
        w1 ≠ [] ∧ IsWsRun w1 ∧ w2 ≠ [] ∧ IsWsRun w2 ∧ w3 ≠ [] ∧ IsWsRun w3 ∧
        w4 ≠ [] ∧ IsWsRun w4 ∧ (tl = "limit".toList ∨ tl = "rate".toList) := by
  constructor
  · intro h
    rcases hc : (((((((afterLit "stop".toList l).bind afterWs1).bind
        (afterLit "and".toList)).bind afterWs1).bind
        (afterLit "wait".toList)).bind afterWs1).bind
        (afterLit "for".toList)).bind afterWs1 with _ | r4
    · simp only [stopAndWaitAt, hc] at h
      exact absurd h (by simp)
    · simp only [stopAndWaitAt, hc, Bool.or_eq_true] at h
      obtain ⟨rf, hX7, hw4⟩ := Option.bind_eq_some.mp hc
      obtain ⟨rw3, hX6, hfor⟩ := Option.bind_eq_some.mp hX7
      obtain ⟨rwt, hX5, hw3⟩ := Option.bind_eq_some.mp hX6
      obtain ⟨rw2, hX4, hwait⟩ := Option.bind_eq_some.mp hX5
      obtain ⟨rnd, hX3, hw2⟩ := Option.bind_eq_some.mp hX4
      obtain ⟨rw1, hX2, hand⟩ := Option.bind_eq_some.mp hX3
      obtain ⟨r0, hstop, hw1⟩ := Option.bind_eq_some.mp hX2
      have hstop' := afterLit_eq_some.mp hstop
      obtain ⟨w1, hr0, hne1, hws1, _⟩ := afterWs1_eq_some.mp hw1
      have hand' := afterLit_eq_some.mp hand
      obtain ⟨w2, hrnd, hne2, hws2, _⟩ := afterWs1_eq_some.mp hw2
      have hwait' := afterLit_eq_some.mp hwait
      obtain ⟨w3, hrwt, hne3, hws3, _⟩ := afterWs1_eq_some.mp hw3
      have hfor' := afterLit_eq_some.mp hfor
      obtain ⟨w4, hrf, hne4, hws4, _⟩ := afterWs1_eq_some.mp hw4
      rcases h with h | h
      · obtain ⟨rr, hrr⟩ := isPrefixOf_iff_append.mp h
        refine ⟨w1, w2, w3, w4, "limit".toList, rr, ?_, hne1, hws1, hne2, hws2,
          hne3, hws3, hne4, hws4, Or.inl rfl⟩
        rw [hstop', hr0, hand', hrnd, hwait', hrwt, hfor', hrf, hrr]
        simp [List.append_assoc]
      · obtain ⟨rr, hrr⟩ := isPrefixOf_iff_append.mp h
        refine ⟨w1, w2, w3, w4, "rate".toList, rr, ?_, hne1, hws1, hne2, hws2,
          hne3, hws3, hne4, hws4, Or.inr rfl⟩
        rw [hstop', hr0, hand', hrnd, hwait', hrwt, hfor', hrf, hrr]
        simp [List.append_assoc]
  · rintro ⟨w1, w2, w3, w4, tl, r, rfl, hne1, hws1, hne2, hws2, hne3, hws3,
      hne4, hws4, htl⟩
    have htl_head : (tl ++ r).takeWhile isWs = [] := by
      rcases htl with rfl | rfl
      · rw [show "limit".toList ++ r = 'l' :: ("imit".toList ++ r) from rfl]
        exact takeWhile_ws_nil_of_cons (by decide) _
      · rw [show "rate".toList ++ r = 'r' :: ("ate".toList ++ r) from rfl]
        exact takeWhile_ws_nil_of_cons (by decide) _
    have h1 : afterLit "stop".toList ("stop".toList ++ w1 ++ "and".toList ++ w2 ++
        "wait".toList ++ w3 ++ "for".toList ++ w4 ++ tl ++ r) =
        some (w1 ++ ("and".toList ++ (w2 ++ ("wait".toList ++ (w3 ++
          ("for".toList ++ (w4 ++ (tl ++ r)))))))) :=
      afterLit_eq_some.mpr (by simp [List.append_assoc])
    have h2 : afterWs1 (w1 ++ ("and".toList ++ (w2 ++ ("wait".toList ++ (w3 ++
        ("for".toList ++ (w4 ++ (tl ++ r)))))))) =
        some ("and".toList ++ (w2 ++ ("wait".toList ++ (w3 ++
          ("for".toList ++ (w4 ++ (tl ++ r))))))) :=
      afterWs1_eq_some.mpr ⟨w1, rfl, hne1, hws1, by
        rw [show "and".toList ++ (w2 ++ ("wait".toList ++ (w3 ++
          ("for".toList ++ (w4 ++ (tl ++ r)))))) = 'a' :: ("nd".toList ++ (w2 ++
          ("wait".toList ++ (w3 ++ ("for".toList ++ (w4 ++ (tl ++ r))))))) from rfl]
        exact takeWhile_ws_nil_of_cons (by decide) _⟩
    have h3 : afterLit "and".toList ("and".toList ++ (w2 ++ ("wait".toList ++ (w3 ++
        ("for".toList ++ (w4 ++ (tl ++ r))))))) =
        some (w2 ++ ("wait".toList ++ (w3 ++ ("for".toList ++ (w4 ++ (tl ++ r)))))) :=
      afterLit_eq_some.mpr rfl
    have h4 : afterWs1 (w2 ++ ("wait".toList ++ (w3 ++ ("for".toList ++
        (w4 ++ (tl ++ r)))))) =
        some ("wait".toList ++ (w3 ++ ("for".toList ++ (w4 ++ (tl ++ r))))) :=
      afterWs1_eq_some.mpr ⟨w2, rfl, hne2, hws2, by
        rw [show "wait".toList ++ (w3 ++ ("for".toList ++ (w4 ++ (tl ++ r)))) =
          'w' :: ("ait".toList ++ (w3 ++ ("for".toList ++ (w4 ++ (tl ++ r))))) from rfl]
        exact takeWhile_ws_nil_of_cons (by decide) _⟩
    have h5 : afterLit "wait".toList ("wait".toList ++ (w3 ++ ("for".toList ++
        (w4 ++ (tl ++ r))))) =
        some (w3 ++ ("for".toList ++ (w4 ++ (tl ++ r)))) :=
      afterLit_eq_some.mpr rfl
    have h6 : afterWs1 (w3 ++ ("for".toList ++ (w4 ++ (tl ++ r)))) =
        some ("for".toList ++ (w4 ++ (tl ++ r))) :=
      afterWs1_eq_some.mpr ⟨w3, rfl, hne3, hws3, by
        rw [show "for".toList ++ (w4 ++ (tl ++ r)) =
          'f' :: ("or".toList ++ (w4 ++ (tl ++ r))) from rfl]
        exact takeWhile_ws_nil_of_cons (by decide) _⟩
    have h7 : afterLit "for".toList ("for".toList ++ (w4 ++ (tl ++ r))) =
        some (w4 ++ (tl ++ r)) :=
      afterLit_eq_some.mpr rfl
    have h8 : afterWs1 (w4 ++ (tl ++ r)) = some (tl ++ r) :=
      afterWs1_eq_some.mpr ⟨w4, rfl, hne4, hws4, htl_head⟩
    simp only [stopAndWaitAt, h1, Option.some_bind, h2, h3, h4, h5, h6, h7, h8]
    rcases htl with rfl | rfl
    · rw [show "limit".toList.isPrefixOf ("limit".toList ++ r) = true from
        isPrefixOf_iff_append.mpr ⟨r, rfl⟩]
      simp
    · rw [show "rate".toList.isPrefixOf ("rate".toList ++ r) = true from
        isPrefixOf_iff_append.mpr ⟨r, rfl⟩]
      simp

/-- Case-insensitive containment of a literal phrase: some split of the
lowercased text around the phrase. -/
def ContainsCI (pat msg : List Char) : Prop := ∃ a b, lowerStr msg = a ++ pat ++ b

/-- Case-insensitive containment of
`stop` whitespace+ `and` whitespace+ `wait` whitespace+ `for` whitespace+
(`limit`|`rate`). -/
def ContainsStopWait (msg : List Char) : Prop :=
  ∃ a w1 w2 w3 w4 tl b, lowerStr msg = a ++ "stop".toList ++ w1 ++ "and".toList ++ w2 ++
      "wait".toList ++ w3 ++ "for".toList ++ w4 ++ tl ++ b ∧
    w1 ≠ [] ∧ IsWsRun w1 ∧ w2 ≠ [] ∧ IsWsRun w2 ∧ w3 ≠ [] ∧ IsWsRun w3 ∧
    w4 ≠ [] ∧ IsWsRun w4 ∧ (tl = "limit".toList ∨ tl = "rate".toList)

/-- Case-insensitive containment of `rate` optional-whitespace `limit`. -/
def ContainsRateLimit (msg : List Char) : Prop :=
  ∃ a w b, lowerStr msg = a ++ "rate".toList ++ w ++ "limit".toList ++ b ∧ IsWsRun w

lemma searchLit_iff {pat msg : List Char} :
    searchAny (litAt pat) (lowerStr msg) = true ↔ ContainsCI pat msg := by
  rw [searchAny_iff]
  constructor
  · rintro ⟨a, b, hab, hb⟩
    obtain ⟨r, rfl⟩ := litAt_iff.mp hb
    exact ⟨a, r, by rw [hab, List.append_assoc]⟩
  · rintro ⟨a, b, hab⟩
    exact ⟨a, pat ++ b, by rw [hab, List.append_assoc], litAt_iff.mpr ⟨b, rfl⟩⟩

lemma searchStopWait_iff {msg : List Char} :
    searchAny stopAndWaitAt (lowerStr msg) = true ↔ ContainsStopWait msg := by
  rw [searchAny_iff]
  constructor
  · rintro ⟨a, b, hab, hb⟩
    obtain ⟨w1, w2, w3, w4, tl, r, rfl, hne1, hws1, hne2, hws2, hne3, hws3,
      hne4, hws4, htl⟩ := stopAndWaitAt_iff.mp hb
    refine ⟨a, w1, w2, w3, w4, tl, r, ?_, hne1, hws1, hne2, hws2, hne3, hws3,
      hne4, hws4, htl⟩
    rw [hab]
    simp [List.append_assoc]
  · rintro ⟨a, w1, w2, w3, w4, tl, b, hab, hne1, hws1, hne2, hws2, hne3, hws3,
      hne4, hws4, htl⟩
    refine ⟨a, "stop".toList ++ w1 ++ "and".toList ++ w2 ++ "wait".toList ++ w3 ++
      "for".toList ++ w4 ++ tl ++ b, ?_,
      stopAndWaitAt_iff.mpr ⟨w1, w2, w3, w4, tl, b, rfl, hne1, hws1, hne2, hws2,
        hne3, hws3, hne4, hws4, htl⟩⟩
    rw [hab]
    simp [List.append_assoc]

lemma searchRateLimit_iff {msg : List Char} :
    searchAny rateLimitAt (lowerStr msg) = true ↔ ContainsRateLimit msg := by
  rw [searchAny_iff]
  constructor
  · rintro ⟨a, b, hab, hb⟩
    obtain ⟨w, r, rfl, hws⟩ := rateLimitAt_iff.mp hb
    refine ⟨a, w, r, ?_, hws⟩
    rw [hab]
    simp [List.append_assoc]
  · rintro ⟨a, w, b, hab, hws⟩
    refine ⟨a, "rate".toList ++ w ++ "limit".toList ++ b, ?_,
      rateLimitAt_iff.mpr ⟨w, b, rfl, hws⟩⟩
    rw [hab]
    simp [List.append_assoc]

lemma is_rate_limit_iff {msg : List Char} :
    is_rate_limit msg = true ↔
      ContainsCI "hit your limit".toList msg ∨ ContainsCI "usage limit".toList msg ∨
      ContainsStopWait msg ∨ ContainsRateLimit msg := by
  simp only [is_rate_limit, Bool.or_eq_true]
  rw [searchLit_iff, searchLit_iff, searchStopWait_iff, searchRateLimit_iff]
  tauto

/-- The rollover arithmetic shared by both clock-time parsers: if the
same-day construction is not in the future it is advanced by exactly one
day, and the result is always strictly in the future. -/
lemma rollover_facts (now : DateTime) (hnow : now.Valid) (h24 m : ℕ)
    (hh : h24 ≤ 23) (hm : m ≤ 59) :
    ((DateTime.mk now.day h24 m 0 0).wallUsec ≤ now.wallUsec →
      ((DateTime.mk now.day h24 m 0 0).addUsec 86400000000).wallUsec =
        (DateTime.mk now.day h24 m 0 0).wallUsec + 86400000000) ∧
    now.wallUsec <
      (if (DateTime.mk now.day h24 m 0 0).wallUsec ≤ now.wallUsec
       then (DateTime.mk now.day h24 m 0 0).addUsec 86400000000
       else DateTime.mk now.day h24 m 0 0).wallUsec := by
  obtain ⟨v1, v2, v3, v4⟩ := hnow
  constructor
  · intro _
    exact wallUsec_addUsec _ _
  · by_cases hle : (DateTime.mk now.day h24 m 0 0).wallUsec ≤ now.wallUsec
    · rw [if_pos hle, wallUsec_addUsec]
      simp only [DateTime.wallUsec] at hle ⊢
      omega
    · rw [if_neg hle]
      omega

/-! ### Shared concrete fixtures for witnesses -/

/-- A concrete wall clock: day 0, 06:30:15.000250. -/
def wNow : DateTime := { day := 0, hour := 6, minute := 30, second := 15, usec := 250 }

/-- A one-entry timezone database knowing only "UTC". -/
def wDb : List Char → Option Tz := fun s => if s = "UTC".toList then some ⟨0⟩ else none

/-- A concrete local timezone (UTC−8). -/
def wLocal : Tz := ⟨-28800000000⟩

lemma wNow_valid : wNow.Valid := by
  refine ⟨?_, ?_, ?_, ?_⟩ <;> simp [wNow]

/-- Shared: under a successful grammar match with valid fields, the reset
datetime `parse_reset_time` returns carries exactly the converted hour and
the parsed minute (rollover only shifts the day). -/
lemma parse_reset_time_fields_eq (db : List Char → Option Tz) (localTz : Tz)
    (emsg : List Char) (now : DateTime) (ts tzs : List Char) (h m : ℕ) (p : Meridiem)
    (hnow : now.Valid)
    (hgram : timeFieldsAt (stripWs (lowerStr ts)) = some (h, m, p))
    (hh : to24Hour h p ≤ 23) (hm : m ≤ 59) :
    ∀ reset rtz lgs, parse_reset_time db localTz emsg now ts tzs = .ok (reset, rtz, lgs) →
      reset.hour = to24Hour h p ∧ reset.minute = m := by
  intro reset rtz lgs heq
  rw [parse_reset_time_eval db localTz emsg now ts tzs h m p hgram hh hm] at heq
  simp only [Except.ok.injEq, Prod.mk.injEq] at heq
  obtain ⟨hres, -, -⟩ := heq
  by_cases hle : (DateTime.mk now.day (to24Hour h p) m 0 0).wallUsec ≤ now.wallUsec
  · rw [if_pos hle] at hres
    rw [addUsec_one_day _ ⟨hh, hm, by norm_num, by norm_num⟩] at hres
    rw [← hres]
    exact ⟨rfl, rfl⟩
  · rw [if_neg hle] at hres
    rw [← hres]
    exact ⟨rfl, rfl⟩

/-! ### The claims -/

/-- C1: for every valid clock-time token and timezone, `parse_reset_time`
succeeds; if constructing today's date at the token's hour/minute (seconds
and microseconds zero) in the resolved timezone yields an instant ≤ now,
the returned instant is exactly 24 hours later than that non-rolled
construction, otherwise the non-rolled construction is returned unchanged;
and the returned instant is strictly greater than now. -/
theorem claim1_reset_rollover (db : List Char → Option Tz) (localTz : Tz)
    (emsg : List Char) (now : DateTime) (ts tzs : List Char) (h m : ℕ) (p : Meridiem)
    (hnow : now.Valid)
    (hgram : timeFieldsAt (stripWs (lowerStr ts)) = some (h, m, p))
    (hh : to24Hour h p ≤ 23) (hm : m ≤ 59) :
    isOkResult (parse_reset_time db localTz emsg now ts tzs) = true ∧
    ∀ reset rtz lgs,
      parse_reset_time db localTz emsg now ts tzs = .ok (reset, rtz, lgs) →
      ((epochUsec (DateTime.mk now.day (to24Hour h p) m 0 0) rtz ≤ epochUsec now rtz →
          epochUsec reset rtz =
            epochUsec (DateTime.mk now.day (to24Hour h p) m 0 0) rtz + 86400000000) ∧
       (epochUsec now rtz < epochUsec (DateTime.mk now.day (to24Hour h p) m 0 0) rtz →
          reset = DateTime.mk now.day (to24Hour h p) m 0 0) ∧
       epochUsec now rtz < epochUsec reset rtz) := by
  have heval := parse_reset_time_eval db localTz emsg now ts tzs h m p hgram hh hm
  constructor
  · rw [heval]
    rfl
  · intro reset rtz lgs heq
    rw [heval] at heq
    simp only [Except.ok.injEq, Prod.mk.injEq] at heq
    obtain ⟨hres, hrtz, hlgs⟩ := heq
    have hro := rollover_facts now hnow (to24Hour h p) m hh hm
    refine ⟨?_, ?_, ?_⟩
    · intro hle
      have hle' : (DateTime.mk now.day (to24Hour h p) m 0 0).wallUsec ≤ now.wallUsec := by
        simp only [epochUsec] at hle
        omega
      rw [← hres, if_pos hle']
      simp only [epochUsec, hro.1 hle']
      omega
    · intro hlt
      have hlt' : ¬ (DateTime.mk now.day (to24Hour h p) m 0 0).wallUsec ≤ now.wallUsec := by
        simp only [epochUsec] at hlt
        omega
      rw [← hres, if_neg hlt']
    · have h2 := hro.2
      simp only [epochUsec]
      rw [← hres]
      omega

/-- C1 witness: "4am (UTC)" at 06:30 rolls to the next day and is strictly
in the future. -/
theorem claim1_reset_rollover_witness :
    isOkResult (parse_reset_time wDb wLocal [] wNow ("4am".toList) ("UTC".toList)) = true ∧
    epochUsec wNow ⟨0⟩ <
      epochUsec { day := 1, hour := 4, minute := 0, second := 0, usec := 0 } ⟨0⟩ := by
  have hth := claim1_reset_rollover wDb wLocal [] wNow ("4am".toList) ("UTC".toList)
    4 0 .am wNow_valid (by decide) (by decide) (by decide)
  exact ⟨hth.1, (hth.2 { day := 1, hour := 4, minute := 0, second := 0, usec := 0 }
    ⟨0⟩ [] (by decide)).2.2⟩

/-- C4: the meridiem conversion maps 12am to hour 0, 12pm to hour 12, any
other hour with pm to hour + 12 and with am to itself; consequently
`parse_reset_time("12am", "UTC")` yields hour 0 minute 0 and
`parse_reset_time("12pm", "UTC")` yields hour 12. -/
theorem claim4_meridiem_conversion :
    to24Hour 12 .am = 0 ∧ to24Hour 12 .pm = 12 ∧
    (∀ h : ℕ, h ≠ 12 → to24Hour h .pm = h + 12) ∧
    (∀ h : ℕ, h ≠ 12 → to24Hour h .am = h) ∧
    (∀ db localTz emsg (now : DateTime) reset rtz lgs, now.Valid →
      parse_reset_time db localTz emsg now ("12am".toList) ("UTC".toList) =
        .ok (reset, rtz, lgs) → reset.hour = 0 ∧ reset.minute = 0) ∧
    (∀ db localTz emsg (now : DateTime) reset rtz lgs, now.Valid →
      parse_reset_time db localTz emsg now ("12pm".toList) ("UTC".toList) =
        .ok (reset, rtz, lgs) → reset.hour = 12 ∧ reset.minute = 0) := by
  refine ⟨by decide, by decide, ?_, ?_, ?_, ?_⟩
  · intro h hne
    simp [to24Hour, hne]
  · intro h hne
    simp [to24Hour, hne]
  · intro db localTz emsg now reset rtz lgs hnow heq
    have hf := parse_reset_time_fields_eq db localTz emsg now ("12am".toList)
      ("UTC".toList) 12 0 .am hnow (by decide) (by decide) (by decide) reset rtz lgs heq
    exact ⟨by rw [hf.1]; decide, hf.2⟩
  · intro db localTz emsg now reset rtz lgs hnow heq
    have hf := parse_reset_time_fields_eq db localTz emsg now ("12pm".toList)
      ("UTC".toList) 12 0 .pm hnow (by decide) (by decide) (by decide) reset rtz lgs heq
    exact ⟨by rw [hf.1]; decide, hf.2⟩

/-- C4 witness: concrete runs of both conversions and of
`parse_reset_time("12am"/"12pm", "UTC")`. -/
theorem claim4_meridiem_conversion_witness :
    to24Hour 7 .pm = 19 ∧
    ({ day := 1, hour := 0, minute := 0, second := 0, usec := 0 } : DateTime).hour = 0 ∧
    ({ day := 0, hour := 12, minute := 0, second := 0, usec := 0 } : DateTime).hour = 12 := by
  refine ⟨claim4_meridiem_conversion.2.2.1 7 (by decide), ?_, ?_⟩
  · exact (claim4_meridiem_conversion.2.2.2.2.1 wDb wLocal [] wNow
      { day := 1, hour := 0, minute := 0, second := 0, usec := 0 } ⟨0⟩ []
      wNow_valid (by decide)).1
  · exact (claim4_meridiem_conversion.2.2.2.2.2 wDb wLocal [] wNow
      { day := 0, hour := 12, minute := 0, second := 0, usec := 0 } ⟨0⟩ []
      wNow_valid (by decide)).1

/-- C10 counterexample: the claim asserts that every out-of-range hour
(0 or 13-23) with "pm" raises an error, but hour 0 with "pm" is accepted:
0 ≠ 12, so 12 is added, giving the valid hour 12 (noon) — both parsers
return a value for "0pm". -/
theorem claim10_counterexample :
    parse_time_to_seconds ("0pm".toList) wNow = .ok (some 19784) ∧
    parse_reset_time wDb wLocal [] wNow ("0pm".toList) ("UTC".toList) =
      .ok ({ day := 0, hour := 12, minute := 0, second := 0, usec := 0 }, ⟨0⟩, []) :=
  ⟨by decide, by decide⟩

/-- C10 (amended): tokens "⟨H⟩am" / "⟨H⟩:⟨MM⟩am" with H = 0 or 13-23 and a
valid minute are accepted by both clock-time parsers, which use H directly
as the 24-hour hour (e.g. "13:00am" resolves to 13:00); the same hours
13-23 with "pm" raise an error because 12 is added, while hour 0 with "pm"
is accepted and resolves to hour 12. -/
theorem claim10_out_of_range_hours :
    (∀ (s : List Char) (now : DateTime) (h m : ℕ), now.Valid →
      timeFieldsFull (stripWs (lowerStr s)) = some (h, m, .am) →
      (h = 0 ∨ (13 ≤ h ∧ h ≤ 23)) → m ≤ 59 →
      returnsSeconds (parse_time_to_seconds s now) = true ∧
      ∀ db localTz emsg tzs,
        isOkResult (parse_reset_time db localTz emsg now s tzs) = true ∧
        ∀ reset rtz lgs,
          parse_reset_time db localTz emsg now s tzs = .ok (reset, rtz, lgs) →
          reset.hour = h ∧ reset.minute = m) ∧
    (∀ (s : List Char) (now : DateTime) (h m : ℕ), now.Valid →
      timeFieldsFull (stripWs (lowerStr s)) = some (h, m, .pm) →
      13 ≤ h → h ≤ 23 →
      raisesValueError (parse_time_to_seconds s now) = true) ∧
    (∀ (s : List Char) (now : DateTime) (m : ℕ), now.Valid →
      timeFieldsFull (stripWs (lowerStr s)) = some (0, m, .pm) → m ≤ 59 →
      returnsSeconds (parse_time_to_seconds s now) = true ∧
      ∀ db localTz emsg tzs reset rtz lgs,
        parse_reset_time db localTz emsg now s tzs = .ok (reset, rtz, lgs) →
        reset.hour = 12) := by
  refine ⟨?_, ?_, ?_⟩
  · intro s now h m hnow hgram hrange hm
    have hne12 : h ≠ 12 := by rcases hrange with rfl | ⟨h1, h2⟩ <;> omega
    have h24 : to24Hour h .am = h := by simp [to24Hour, hne12]
    have hh : to24Hour h .am ≤ 23 := by
      rw [h24]
      rcases hrange with rfl | ⟨h1, h2⟩ <;> omega
    constructor
    · rw [parse_time_to_seconds_eval_ok s now h m .am hgram hh hm]
      rfl
    · intro db localTz emsg tzs
      have hgat : timeFieldsAt (stripWs (lowerStr s)) = some (h, m, .am) :=
        timeFieldsAt_of_spec (timeFieldsFull_eq_some.mp hgram)
      constructor
      · rw [parse_reset_time_eval db localTz emsg now s tzs h m .am hgat hh hm]
        rfl
      · intro reset rtz lgs heq
        have hf := parse_reset_time_fields_eq db localTz emsg now s tzs h m .am
          hnow hgat hh hm reset rtz lgs heq
        exact ⟨by rw [hf.1, h24], hf.2⟩
  · intro s now h m hnow hgram h13 h23
    have hne12 : h ≠ 12 := by omega
    have h24 : to24Hour h .pm = h + 12 := by simp [to24Hour, hne12]
    rw [parse_time_to_seconds_eval_err s now h m .pm hgram (Or.inl (by rw [h24]; omega))]
    rfl
  · intro s now m hnow hgram hm
    have hh : to24Hour 0 .pm ≤ 23 := by decide
    constructor
    · rw [parse_time_to_seconds_eval_ok s now 0 m .pm hgram hh hm]
      rfl
    · intro db localTz emsg tzs reset rtz lgs heq
      have hgat := timeFieldsAt_of_spec (timeFieldsFull_eq_some.mp hgram)
      have hf := parse_reset_time_fields_eq db localTz emsg now s tzs 0 m .pm
        hnow hgat hh hm reset rtz lgs heq
      rw [hf.1]
      decide

/-- C10 witness: "13:00am" is accepted and resolves to hour 13;
"13:00pm" raises. -/
theorem claim10_out_of_range_hours_witness :
    returnsSeconds (parse_time_to_seconds ("13:00am".toList) wNow) = true ∧
    raisesValueError (parse_time_to_seconds ("13:00pm".toList) wNow) = true ∧
    ({ day := 0, hour := 13, minute := 0, second := 0, usec := 0 } : DateTime).hour = 13 := by
  refine ⟨?_, ?_, ?_⟩
  · exact (claim10_out_of_range_hours.1 ("13:00am".toList) wNow 13 0 wNow_valid
      (by decide) (Or.inr (by norm_num)) (by norm_num)).1
  · exact claim10_out_of_range_hours.2.1 ("13:00pm".toList) wNow 13 0 wNow_valid
      (by decide) (by norm_num) (by norm_num)
  · exact (((claim10_out_of_range_hours.1 ("13:00am".toList) wNow 13 0 wNow_valid
      (by decide) (Or.inr (by norm_num)) (by norm_num)).2 wDb wLocal []
      ("UTC".toList)).2 { day := 0, hour := 13, minute := 0, second := 0, usec := 0 }
      ⟨0⟩ [] (by decide)).1

/-- C6: `parse_time_to_seconds` distinguishes two failure modes: tokens
that do not match the clock-time grammar at all return the sentinel `None`
(no exception), while tokens that match the grammar but yield impossible
calendar fields (converted hour above 23, or minute 60 or more) raise a
`ValueError`; grammar matches with possible fields return a value. -/
theorem claim6_time_failure_modes (s : List Char) (now : DateTime) :
    ((∀ h m p, ¬ SpecTimeTok (stripWs (lowerStr s)) h m p) →
      parse_time_to_seconds s now = .ok none) ∧
    (∀ h m p, SpecTimeTok (stripWs (lowerStr s)) h m p →
      ((to24Hour h p ≤ 23 ∧ m ≤ 59) →
        returnsSeconds (parse_time_to_seconds s now) = true) ∧
      ((24 ≤ to24Hour h p ∨ 60 ≤ m) →
        raisesValueError (parse_time_to_seconds s now) = true)) := by
  constructor
  · intro hall
    exact parse_time_to_seconds_eval_none s now (timeFieldsFull_eq_none.mpr hall)
  · intro h m p hspec
    have hgram := timeFieldsFull_eq_some.mpr hspec
    constructor
    · rintro ⟨hh, hm⟩
      rw [parse_time_to_seconds_eval_ok s now h m p hgram hh hm]
      rfl
    · intro hbad
      rw [parse_time_to_seconds_eval_err s now h m p hgram hbad]
      rfl

/-- C6 witness: "not a time" returns the sentinel; "25:00pm" matches the
grammar (hour 25, pm) but raises. -/
theorem claim6_time_failure_modes_witness :
    parse_time_to_seconds ("not a time".toList) wNow = .ok none ∧
    raisesValueError (parse_time_to_seconds ("25:00pm".toList) wNow) = true := by
  constructor
  · exact (claim6_time_failure_modes ("not a time".toList) wNow).1
      (timeFieldsFull_eq_none.mp (by decide))
  · exact ((claim6_time_failure_modes ("25:00pm".toList) wNow).2 25 0 .pm
      (timeFieldsFull_eq_some.mp (by decide))).2 (Or.inl (by decide))

/-- C2 counterexample: the claim requires the returned value to be the
truncation of the exact product value × multiplier, but the code computes
`int(float(...) * mult)` in IEEE-754 binary64: on "9007199254740993s"
(2^53 + 1 seconds) it returns 9007199254740992, not 9007199254740993. -/
theorem claim2_parse_duration_counterexample :
    parse_duration ("9007199254740993s".toList) = .ok (some 9007199254740992) ∧
    (9007199254740992 : ℤ) ≠ 9007199254740993 :=
  ⟨by decide, by decide⟩

/-- C2 (amended): `parse_duration` returns the sentinel `None` exactly
when the lowercased, trimmed token fails the grammar
`<number with optional fractional part><optional whitespace><unit>` with
unit in the h/m/s families; on a grammar match the value is the truncation
of the double-precision product of the parsed number and the unit
multiplier, which equals the exact truncated product whenever the numeric
part is an integer N with N × multiplier ≤ 2^53 — in particular
`parse_duration("2h") = 7200`, `parse_duration("0.5m") = 30`,
`parse_duration("123") = None`, `parse_duration("45x") = None` — but can
differ from the exact value beyond 2^53. -/
theorem claim2_parse_duration (s : List Char) :
    (parse_duration s = .ok none ↔
      ∀ d f u, ¬ SpecDurTok (stripWs (lowerStr s)) d f u) ∧
    (∀ d u, SpecDurTok (stripWs (lowerStr s)) d [] u →
      digitsVal d * unitMult u ≤ 2 ^ 53 →
      parse_duration s = .ok (some ((digitsVal d * unitMult u : ℕ) : ℤ))) ∧
    parse_duration ("2h".toList) = .ok (some 7200) ∧
    parse_duration ("0.5m".toList) = .ok (some 30) ∧
    parse_duration ("123".toList) = .ok none ∧
    parse_duration ("45x".toList) = .ok none := by
  refine ⟨?_, ?_, by decide, by decide, by decide, by decide⟩
  · rw [← matchDurationFull_eq_none]
    constructor
    · intro hok
      rcases hm : matchDurationFull (stripWs (lowerStr s)) with _ | ⟨⟨d, f, u⟩⟩
      · rfl
      · simp only [parse_duration, hm] at hok
        split at hok
        · simp at hok
        · simp at hok
    · intro hnone
      simp only [parse_duration, hnone]
  · intro d u hspec hle
    have hm : matchDurationFull (stripWs (lowerStr s)) = some (d, [], u) :=
      matchDurationFull_eq_some.mpr hspec
    simp only [parse_duration, hm]
    have hsd : strToDouble d [] = roundDouble (digitsVal d) 1 := by
      simp [strToDouble, digitsVal]
    rw [hsd]
    rw [show (if u ∈ durationUnitsHours then (3600:ℕ)
        else if u ∈ durationUnitsMinutes then 60 else 1) = unitMult u from rfl]
    have hk : 1 ≤ unitMult u := by
      unfold unitMult
      split_ifs <;> norm_num
    rw [float_pipeline_int_exact (digitsVal d) (unitMult u) hk hle]

/-- C2 witness: the exactness clause at the integer token "7h". -/
theorem claim2_parse_duration_witness :
    parse_duration ("7h".toList) = .ok (some 25200) := by
  have hspec : SpecDurTok (stripWs (lowerStr ("7h".toList))) ['7'] [] ("h".toList) :=
    ⟨by decide, by decide, by decide, Or.inl ⟨rfl, [], by decide, by decide⟩⟩
  have h := (claim2_parse_duration ("7h".toList)).2.1 ['7'] ("h".toList) hspec (by decide)
  rw [show ((digitsVal ['7'] * unitMult ("h".toList) : ℕ) : ℤ) = 25200 from by decide] at h
  exact h

/-- C3: the rate-limit predicate holds iff the text case-insensitively
contains one of: "hit your limit"; "usage limit"; "stop" ws+ "and" ws+
"wait" ws+ "for" ws+ ("limit"|"rate"); or "rate" ws* "limit"; text with
none of them (e.g. "task completed successfully") is rejected. -/
theorem claim3_rate_limit_detection (msg : List Char) :
    (is_rate_limit msg = true ↔
      ContainsCI ("hit your limit".toList) msg ∨
      ContainsCI ("usage limit".toList) msg ∨
      ContainsStopWait msg ∨ ContainsRateLimit msg) ∧
    is_rate_limit ("task completed successfully".toList) = false :=
  ⟨is_rate_limit_iff, by decide⟩

/-- C5: `parse_duration_or_time` tries duration parsing first and returns
its result whenever it succeeds (so "2h" gives 7200 without consulting the
time grammar); on a duration non-match it tries clock-time parsing with
the local wall clock and returns that result when it succeeds; when
neither grammar matches it raises a `ValueError` whose message contains
the original token and both accepted example formats. -/
theorem claim5_duration_or_time (arg : List Char) (now : DateTime) :
    (∀ n : ℤ, parse_duration arg = .ok (some n) →
      parse_duration_or_time arg now = .ok n) ∧
    (parse_duration arg = .ok none →
      ∀ n : ℤ, parse_time_to_seconds arg now = .ok (some n) →
        parse_duration_or_time arg now = .ok n) ∧
    (parse_duration arg = .ok none → parse_time_to_seconds arg now = .ok none →
      parse_duration_or_time arg now = .error (.valueError (cannotParseMsg arg)) ∧
      arg <:+: cannotParseMsg arg ∧
      "2h".toList <:+: cannotParseMsg arg ∧
      "30m".toList <:+: cannotParseMsg arg ∧
      "4pm".toList <:+: cannotParseMsg arg ∧
      "11:30am".toList <:+: cannotParseMsg arg) ∧
    parse_duration_or_time ("2h".toList) now = .ok 7200 := by
  refine ⟨?_, ?_, ?_, ?_⟩
  · intro n h1
    simp only [parse_duration_or_time, h1]
  · intro h1 n h2
    simp only [parse_duration_or_time, h1, h2]
  · intro h1 h2
    refine ⟨by simp only [parse_duration_or_time, h1, h2], ?_, ?_, ?_, ?_, ?_⟩
    · exact ⟨"Could not parse '".toList,
        "' as duration (e.g., 2h, 30m) or time (e.g., 4pm, 11:30am)".toList, rfl⟩
    · refine ⟨"Could not parse '".toList ++ arg ++ "' as duration (e.g., ".toList,
        ", 30m) or time (e.g., 4pm, 11:30am)".toList, ?_⟩
      simp only [cannotParseMsg, List.append_assoc]
      rfl
    · refine ⟨"Could not parse '".toList ++ arg ++ "' as duration (e.g., 2h, ".toList,
        ") or time (e.g., 4pm, 11:30am)".toList, ?_⟩
      simp only [cannotParseMsg, List.append_assoc]
      rfl
    · refine ⟨"Could not parse '".toList ++ arg ++
        "' as duration (e.g., 2h, 30m) or time (e.g., ".toList,
        ", 11:30am)".toList, ?_⟩
      simp only [cannotParseMsg, List.append_assoc]
      rfl
    · refine ⟨"Could not parse '".toList ++ arg ++
        "' as duration (e.g., 2h, 30m) or time (e.g., 4pm, ".toList,
        ")".toList, ?_⟩
      simp only [cannotParseMsg, List.append_assoc]
      rfl
  · have hd : parse_duration ("2h".toList) = .ok (some 7200) := by decide
    simp only [parse_duration_or_time, hd]

/-- C5 witness: "garbage" matches neither grammar and raises the error
naming the token. -/
theorem claim5_duration_or_time_witness :
    parse_duration_or_time ("garbage".toList) wNow =
      .error (.valueError (cannotParseMsg ("garbage".toList))) ∧
    "garbage".toList <:+: cannotParseMsg ("garbage".toList) := by
  have h := (claim5_duration_or_time ("garbage".toList) wNow).2.2.1
    (by decide) (by decide)
  exact ⟨h.1, h.2.1⟩

/-- C7: `parse_reset_time` normalises the timezone text by trimming and
replacing spaces with underscores, so "America/Los Angeles" resolves like
"America/Los_Angeles"; and when resolution fails the step never raises:
it falls back to the local timezone and writes exactly one log line
recording the fallback (naming the normalised identifier). -/
theorem claim7_timezone_fallback :
    normalizeTzText ("America/Los Angeles".toList) = "America/Los_Angeles".toList ∧
    (∀ db localTz emsg (now : DateTime) ts,
      parse_reset_time db localTz emsg now ts ("America/Los Angeles".toList) =
        parse_reset_time db localTz emsg now ts ("America/Los_Angeles".toList)) ∧
    (∀ db localTz emsg tzs, db (normalizeTzText tzs) = none →
      resolve_tz db localTz emsg tzs =
        (localTz, [zoneInfoFallbackLog (normalizeTzText tzs) emsg])) := by
  refine ⟨by decide, ?_, ?_⟩
  · intro db localTz emsg now ts
    have hrz : resolve_tz db localTz emsg ("America/Los Angeles".toList) =
        resolve_tz db localTz emsg ("America/Los_Angeles".toList) := by
      simp only [resolve_tz]
      rw [show normalizeTzText ("America/Los Angeles".toList) =
        normalizeTzText ("America/Los_Angeles".toList) from by decide]
    simp only [parse_reset_time, hrz]
  · intro db localTz emsg tzs hdb
    simp only [resolve_tz, hdb]

/-- C7 witness: an unknown timezone falls back to the local timezone with
one debug log line. -/
theorem claim7_timezone_fallback_witness :
    resolve_tz wDb wLocal [] ("Mars/Phobos".toList) =
      (wLocal, [zoneInfoFallbackLog (normalizeTzText ("Mars/Phobos".toList)) []]) :=
  claim7_timezone_fallback.2.2 wDb wLocal [] ("Mars/Phobos".toList) (by decide)

/-- C8: in hook mode, when detection fails, or extraction fails, or
resolving the reset instant raises, the program does not sleep and prints
exactly the one decision `continue: false`; the sleep path requires
detection, extraction and resolution all to succeed. -/
theorem claim8_hook_failure_paths (db : List Char → Option Tz) (localTz : Tz)
    (emsg : List Char) (now1 now2 : DateTime) (msg : List Char) :
    (is_rate_limit msg = false →
      hook_mode db localTz emsg now1 now2 msg =
        { sleptUsec := none, printed := continueFalseJson }) ∧
    (extract_time_tz msg = none →
      hook_mode db localTz emsg now1 now2 msg =
        { sleptUsec := none, printed := continueFalseJson }) ∧
    (∀ ts tzs e, extract_time_tz msg = some (ts, tzs) →
      parse_reset_time db localTz emsg now1 ts tzs = .error e →
      hook_mode db localTz emsg now1 now2 msg =
        { sleptUsec := none, printed := continueFalseJson }) ∧
    (∀ d, (hook_mode db localTz emsg now1 now2 msg).sleptUsec = some d →
      is_rate_limit msg = true ∧
      ∃ ts tzs reset rtz lgs, extract_time_tz msg = some (ts, tzs) ∧
        parse_reset_time db localTz emsg now1 ts tzs = .ok (reset, rtz, lgs)) := by
  refine ⟨?_, ?_, ?_, ?_⟩
  · intro h
    simp [hook_mode, h]
  · intro hex
    by_cases hrl : is_rate_limit msg = true
    · simp [hook_mode, hrl, hex]
    · simp [hook_mode, hrl]
  · intro ts tzs e hex hpr
    by_cases hrl : is_rate_limit msg = true
    · simp [hook_mode, hrl, hex, hpr]
    · simp [hook_mode, hrl]
  · intro d hd
    by_cases hrl : is_rate_limit msg = true
    · rcases hex : extract_time_tz msg with _ | ⟨ts, tzs⟩
      · simp [hook_mode, hrl, hex] at hd
      · rcases hpr : parse_reset_time db localTz emsg now1 ts tzs with e | ⟨reset, rtz, lgs⟩
        · simp [hook_mode, hrl, hex, hpr] at hd
        · exact ⟨hrl, ts, tzs, reset, rtz, lgs, rfl, hpr⟩
    · simp [hook_mode, hrl] at hd

/-- C8 witness: a non-rate-limit message does not sleep and prints the
continue-false decision. -/
theorem claim8_hook_failure_paths_witness :
    hook_mode wDb wLocal [] wNow wNow ("task completed successfully".toList) =
      { sleptUsec := none, printed := continueFalseJson } :=
  (claim8_hook_failure_paths wDb wLocal [] wNow wNow
    ("task completed successfully".toList)).1 (by decide)

/-- C9: after resolving the reset instant, the effective wake time is the
reset instant plus exactly 5 minutes (300000000 μs); the process sleeps
for wake − now seconds iff that difference is strictly positive when the
wait is computed, and otherwise proceeds with zero wait (both paths print
`continue: true`). -/
theorem claim9_hook_buffer (db : List Char → Option Tz) (localTz : Tz) (emsg : List Char)
    (now1 now2 : DateTime) (msg ts tzs : List Char) (reset : DateTime) (rtz : Tz)
    (lgs : List (List Char))
    (hrl : is_rate_limit msg = true)
    (hex : extract_time_tz msg = some (ts, tzs))
    (hpr : parse_reset_time db localTz emsg now1 ts tzs = .ok (reset, rtz, lgs)) :
    (reset.addUsec (BUFFER_MINUTES * 60 * 1000000)).wallUsec =
      reset.wallUsec + 300000000 ∧
    (0 < reset.wallUsec + 300000000 - now2.wallUsec →
      hook_mode db localTz emsg now1 now2 msg =
        { sleptUsec := some (reset.wallUsec + 300000000 - now2.wallUsec),
          printed := continueTrueJson }) ∧
    (reset.wallUsec + 300000000 - now2.wallUsec ≤ 0 →
      hook_mode db localTz emsg now1 now2 msg =
        { sleptUsec := none, printed := continueTrueJson }) := by
  have hw : (reset.addUsec (BUFFER_MINUTES * 60 * 1000000)).wallUsec =
      reset.wallUsec + 300000000 := by
    rw [wallUsec_addUsec]
    norm_num [BUFFER_MINUTES]
  have hm : hook_mode db localTz emsg now1 now2 msg =
      (if 0 < reset.wallUsec + 300000000 - now2.wallUsec then
        ({ sleptUsec := some (reset.wallUsec + 300000000 - now2.wallUsec),
           printed := continueTrueJson } : HookOutcome)
       else { sleptUsec := none, printed := continueTrueJson }) := by
    simp [hook_mode, hrl, hex, hpr, hw]
  refine ⟨hw, ?_, ?_⟩
  · intro hpos
    rw [hm, if_pos hpos]
  · intro hzero
    rw [hm, if_neg (by omega)]

/-- C9 witness: a concrete rate-limit message sleeps until 5 minutes past
the rolled-over 4am reset. -/
theorem claim9_hook_buffer_witness :
    hook_mode wDb ⟨0⟩ [] wNow wNow ("You hit your limit. resets 4am (UTC)".toList) =
      { sleptUsec := some 77684999750, printed := continueTrueJson } := by
  have h := (claim9_hook_buffer wDb ⟨0⟩ [] wNow wNow
    ("You hit your limit. resets 4am (UTC)".toList) ("4am".toList) ("UTC".toList)
    { day := 1, hour := 4, minute := 0, second := 0, usec := 0 } ⟨0⟩ []
    (by decide) (by decide) (by decide)).2.1 (by decide)
  rw [show ({ day := 1, hour := 4, minute := 0, second := 0, usec := 0 } :
      DateTime).wallUsec + 300000000 - wNow.wallUsec = 77684999750 from by decide] at h
  exact h

end RateLimitSleep
